import Mathlib

/-!
Verification development for the `egui_inspect` bindings generator.

The generator consumes a rustdoc declaration index and classifies
enum and struct declarations as trivially transferable, recording
successes in a registry of known types (`src/main.rs`), and carries a
small rendering IR with naming and indentation helpers (`src/ag.rs`).
This file embeds those two source files and proves the specification
claims about them.
-/

set_option maxHeartbeats 1000000

namespace EguiBindgen

/-- Decidable equality for `Except`, needed to evaluate runs by `decide`. -/
def exceptDecEq {ε α : Type} [DecidableEq ε] [DecidableEq α] :
    DecidableEq (Except ε α)
  | Except.error e1, Except.error e2 =>
    if h : e1 = e2 then Decidable.isTrue (by rw [h]) else Decidable.isFalse (by simp [h])
  | Except.error _, Except.ok _ => Decidable.isFalse (by simp)
  | Except.ok _, Except.error _ => Decidable.isFalse (by simp)
  | Except.ok a1, Except.ok a2 =>
    if h : a1 = a2 then Decidable.isTrue (by rw [h]) else Decidable.isFalse (by simp [h])

instance {ε α : Type} [DecidableEq ε] [DecidableEq α] : DecidableEq (Except ε α) :=
  exceptDecEq

/-- Identifier of a declaration in the rustdoc index (rustdoc `Id`). -/
abbrev DeclId := Nat

/-- Shape of an enum variant (rustdoc `VariantKind`). -/
inductive VariantKind where
  | plain
  | tuple
  | structLike
deriving DecidableEq

/-- Explicit enum discriminant (rustdoc `Discriminant`). -/
structure Discriminant where
  expr : String
  value : String
deriving DecidableEq

/-- Payload of a variant item (rustdoc `Variant`). -/
structure VariantData where
  kind : VariantKind
  discriminant : Option Discriminant
deriving DecidableEq

/-- Kind of a struct declaration (rustdoc `StructKind`). -/
inductive StructKind where
  | plain (fields : List DeclId) (has_stripped_fields : Bool)
  | tuple
  | unitK
deriving DecidableEq

/-- Payload of a struct declaration (rustdoc `Struct`; only `kind` is read). -/
structure StructData where
  kind : StructKind
deriving DecidableEq

/-- Payload of an enum declaration (rustdoc `Enum`; only `variants` is read). -/
structure EnumData where
  variants : List DeclId
deriving DecidableEq

/-- A struct field's type (rustdoc `Type`).  The spec's `TypeReference`
is closed to primitives, whose registry spelling is the primitive's name
(the Known-Type Registry is seeded under `i32`, `u32`, `f32`, `f64`);
every other shape is collapsed into one constructor.  The generator's
code never reads this payload. -/
inductive RdType where
  | primitive (name : String)
  | otherTy
deriving DecidableEq

/-- Inner payload of an item (rustdoc `ItemEnum`).  The kinds the generator
never inspects structurally are nullary here, except struct fields, which
keep their `Type` payload so the spec's classification criterion is
expressible. -/
inductive ItemEnum where
  | union
  | structK (s : StructData)
  | enumK (e : EnumData)
  | function
  | typeAlias
  | constant
  | staticK
  | extType
  | macK
  | procMacK
  | variantK (v : VariantData)
  | structFieldK (ty : RdType)
  | other
deriving DecidableEq

/-- A rustdoc item: its id, optional name, optional docs and payload. -/
structure Item where
  id : DeclId
  name : Option String
  docs : Option String
  inner : ItemEnum
deriving DecidableEq

/-- The declaration index in its iteration order (`krate.index`). -/
abbrev Krate := List Item

/-- `self.krate.index[&id]`: indexing a `HashMap` panics when the key is
absent, modelled as `Except.error`. -/
def getIndex (k : Krate) (i : DeclId) : Except String Item :=
  match k.find? (fun it => it.id == i) with
  | some it => Except.ok it
  | none => Except.error ("no entry found for key")

/-- Transferability class (`TypeKind` in `main.rs`). -/
inductive TypeKind where
  | copy
  | opaq
deriving DecidableEq

/-- Registry entry (`KnownType` in `main.rs`). -/
structure KnownType where
  cs_name : String
  kind : TypeKind
deriving DecidableEq

/-- `HashMap::insert`, modelled on an association list: the new binding
shadows any earlier binding of the same key for lookups. -/
def insertKT (m : List (String × KnownType)) (key : String) (v : KnownType) :
    List (String × KnownType) :=
  (key, v) :: m

/-- `HashMap::get`. -/
def lookupKT (m : List (String × KnownType)) (key : String) : Option KnownType :=
  List.lookup key m

/-- `BindgenContext::default_known_types`. -/
def default_known_types : List (String × KnownType) :=
  [("i32", KnownType.mk ("int") TypeKind.copy),
   ("u32", KnownType.mk ("uint") TypeKind.copy),
   ("f32", KnownType.mk ("float") TypeKind.copy),
   ("f64", KnownType.mk ("double") TypeKind.copy),
   ("egui::Pos2", KnownType.mk ("IVec2") TypeKind.copy),
   ("egui::Vec2", KnownType.mk ("IVec2") TypeKind.copy),
   ("egui::Vec2", KnownType.mk ("IVec2") TypeKind.copy)].foldl
    (fun m p => insertKT m p.1 p.2) []

/-- The mutable part of `BindgenContext` the classifier touches: the
known-type registry and the output buffer. -/
structure BCtx where
  known_types : List (String × KnownType)
  result : String
deriving DecidableEq

/-- `BindgenContext::rust_name`: the item's name, or the empty string when
the item is unnamed (`unwrap_or("")`). -/
def rust_name (k : Krate) (i : DeclId) : Except String String :=
  match getIndex k i with
  | Except.error e => Except.error e
  | Except.ok it => Except.ok (it.name.getD (""))

/-- `Option::expect` on an optional name: a panic aborts the run. -/
def expectName (o : Option String) (msg : String) : Except String String :=
  match o with
  | some n => Except.ok n
  | none => Except.error msg

/-- `BindgenContext::write_summary_doc`. -/
def write_summary_doc (data : Option String) (ind : Nat) (result : String) : String :=
  match data with
  | none => result
  | some docs =>
    let indent_str := String.mk (List.replicate ind ' ')
    let edited_label := docs.replace ("\n") ("\n" ++ indent_str ++ "/// ")
    result ++ indent_str ++ "/// <summary>\n" ++ indent_str ++ "/// " ++ edited_label
      ++ "\n" ++ indent_str ++ "/// </summary>\n"

/-- `BindgenContext::is_primitive_enum`: every variant item must be a
`Variant` (otherwise `unreachable!`) of plain shape. -/
def is_primitive_enum (k : Krate) : List DeclId → Except String Bool
  | [] => Except.ok true
  | v :: rest =>
    match getIndex k v with
    | Except.error e => Except.error e
    | Except.ok it =>
      match it.inner with
      | ItemEnum.variantK x =>
        if x.kind ≠ VariantKind.plain then Except.ok false
        else is_primitive_enum k rest
      | _ => Except.error ("unreachable")

/-- The variant-emission loop inside `generate_primitive_enum`. -/
def emit_variants (k : Krate) : List DeclId → String → Except String String
  | [], result => Except.ok result
  | v :: rest, result =>
    match getIndex k v with
    | Except.error e => Except.error e
    | Except.ok var =>
      let r := write_summary_doc var.docs 4 result
      match var.inner with
      | ItemEnum.variantK y =>
        match expectName var.name ("Failed to get item name") with
        | Except.error e => Except.error e
        | Except.ok nm =>
          match y.discriminant with
          | some d => emit_variants k rest (r ++ "    " ++ nm ++ " = " ++ d.value ++ ",\n")
          | none => emit_variants k rest (r ++ "    " ++ nm ++ ",\n")
      | _ => Except.error ("unreachable")

/-- `BindgenContext::generate_primitive_enum`. -/
def generate_primitive_enum (k : Krate) (s : BCtx) (i : DeclId) :
    Except String (BCtx × Bool) :=
  match getIndex k i with
  | Except.error e => Except.error e
  | Except.ok it =>
    match it.inner with
    | ItemEnum.enumK x =>
      match is_primitive_enum k x.variants with
      | Except.error e => Except.error e
      | Except.ok prim =>
        if prim then
          match expectName it.name ("Item did not have name") with
          | Except.error e => Except.error e
          | Except.ok cs_name =>
            let r0 := write_summary_doc it.docs 0 s.result
            let r1 := r0 ++ "public enum " ++ cs_name ++ "\n\x7b\n"
            match emit_variants k x.variants r1 with
            | Except.error e => Except.error e
            | Except.ok r2 =>
              let r3 := r2 ++ "\x7d\n\n"
              match rust_name k i with
              | Except.error e => Except.error e
              | Except.ok rn =>
                Except.ok
                  (BCtx.mk (insertKT s.known_types rn (KnownType.mk cs_name TypeKind.copy)) r3,
                   true)
        else Except.ok (s, false)
    | _ => Except.error ("unreachable")

/-- The `retain` pass of `generate_primitive_enums`, processing the
worklist left to right with registry updates visible to later entries. -/
def enum_pass (k : Krate) : BCtx → List DeclId → Except String (BCtx × List DeclId)
  | s, [] => Except.ok (s, [])
  | s, x :: rest =>
    match getIndex k x with
    | Except.error e => Except.error e
    | Except.ok it =>
      match it.inner with
      | ItemEnum.enumK _ =>
        match generate_primitive_enum k s it.id with
        | Except.error e => Except.error e
        | Except.ok (s1, b) =>
          match enum_pass k s1 rest with
          | Except.error e => Except.error e
          | Except.ok (s2, rest2) => Except.ok (s2, if b then rest2 else x :: rest2)
      | _ =>
        match enum_pass k s rest with
        | Except.error e => Except.error e
        | Except.ok (s2, rest2) => Except.ok (s2, x :: rest2)

/-- `BindgenContext::generate_primitive_enums`. -/
def generate_primitive_enums (k : Krate) (s : BCtx) (w : List DeclId) :
    Except String (BCtx × List DeclId) :=
  enum_pass k s w

/-- The `fields.iter().all(..)` check inside `generate_primitive_struct`:
each field id is looked up via `rust_name` in the registry and must map to
a `Copy` entry.  Short-circuits on the first failing field. -/
def fields_all_copy (k : Krate) (kts : List (String × KnownType)) :
    List DeclId → Except String Bool
  | [] => Except.ok true
  | f :: rest =>
    match rust_name k f with
    | Except.error e => Except.error e
    | Except.ok rn =>
      match lookupKT kts rn with
      | some kt =>
        if kt.kind = TypeKind.copy then fields_all_copy k kts rest else Except.ok false
      | none => Except.ok false

/-- `BindgenContext::generate_primitive_struct`. -/
def generate_primitive_struct (k : Krate) (s : BCtx) (i : DeclId) :
    Except String (BCtx × Bool) :=
  match getIndex k i with
  | Except.error e => Except.error e
  | Except.ok it =>
    match it.inner with
    | ItemEnum.structK x =>
      match x.kind with
      | StructKind.plain fields has_stripped_fields =>
        if has_stripped_fields then Except.ok (s, false)
        else
          match fields_all_copy k s.known_types fields with
          | Except.error e => Except.error e
          | Except.ok ok =>
            if ok then
              match rust_name k i with
              | Except.error e => Except.error e
              | Except.ok rn =>
                Except.ok
                  (BCtx.mk (insertKT s.known_types rn (KnownType.mk rn TypeKind.copy)) s.result,
                   true)
            else Except.ok (s, false)
      | _ => Except.ok (s, false)
    | _ => Except.error ("unreachable")

/-- One `retain` pass of the struct fixed-point loop. -/
def struct_pass (k : Krate) : BCtx → List DeclId → Except String (BCtx × List DeclId)
  | s, [] => Except.ok (s, [])
  | s, x :: rest =>
    match getIndex k x with
    | Except.error e => Except.error e
    | Except.ok it =>
      match it.inner with
      | ItemEnum.structK _ =>
        match generate_primitive_struct k s it.id with
        | Except.error e => Except.error e
        | Except.ok (s1, b) =>
          match struct_pass k s1 rest with
          | Except.error e => Except.error e
          | Except.ok (s2, rest2) => Except.ok (s2, if b then rest2 else x :: rest2)
      | _ =>
        match struct_pass k s rest with
        | Except.error e => Except.error e
        | Except.ok (s2, rest2) => Except.ok (s2, x :: rest2)

/-- The `loop` of `generate_primitive_structs`, with an explicit pass
budget.  The Rust loop breaks as soon as a pass removes nothing, and every
pass before the break strictly shrinks the worklist, so `w.length + 1`
passes always reach the break; `struct_loop_fixed_point` proves this
budget adequate, making this a faithful model of the unbounded loop. -/
def struct_loop_fuel (k : Krate) : Nat → BCtx → List DeclId → Except String (BCtx × List DeclId)
  | 0, s, w => Except.ok (s, w)
  | n + 1, s, w =>
    match struct_pass k s w with
    | Except.error e => Except.error e
    | Except.ok p =>
      if p.2.length = w.length then Except.ok p
      else struct_loop_fuel k n p.1 p.2

/-- `BindgenContext::generate_primitive_structs`. -/
def generate_primitive_structs (k : Krate) (s : BCtx) (w : List DeclId) :
    Except String (BCtx × List DeclId) :=
  struct_loop_fuel k (w.length + 1) s w

/-- `BindgenContext::generate`: the enum pass followed by the struct
fixed-point passes, threading registry, buffer and worklist. -/
def generate (k : Krate) (s : BCtx) (w : List DeclId) :
    Except String (BCtx × List DeclId) :=
  match generate_primitive_enums k s w with
  | Except.error e => Except.error e
  | Except.ok p => generate_primitive_structs k p.1 p.2

/-- `BindgenContext::item_relevant`. -/
def item_relevant (it : Item) : Bool :=
  match it.inner with
  | ItemEnum.union => true
  | ItemEnum.structK _ => true
  | ItemEnum.enumK _ => true
  | ItemEnum.function => true
  | ItemEnum.typeAlias => true
  | ItemEnum.constant => true
  | ItemEnum.staticK => true
  | ItemEnum.extType => true
  | ItemEnum.macK => true
  | ItemEnum.procMacK => true
  | _ => false

/-- The worklist built by `BindgenContext::new`: relevant items in the
index iteration order. -/
def initial_remaining (k : Krate) : List DeclId :=
  (k.filter item_relevant).map (fun it => it.id)

/-- The registry and buffer built by `BindgenContext::new`. -/
def initial_state : BCtx :=
  BCtx.mk default_known_types ("")

end EguiBindgen

namespace Ag

/-- Separator characters at which the case converter splits words.
Modelled from the spec: the case conversion is the external
`convert_case` collaborator, described as splitting an identifier into
words and reassembling them per target convention. -/
def isSep (c : Char) : Bool :=
  c == '_' || c == '-' || c == ' '

/-- Modelled from the spec: split an identifier into words at separator
characters and at a lower-to-upper case change.  The accumulator holds
the current word reversed. -/
def splitGo : List Char → List Char → List (List Char)
  | [], acc => if acc.isEmpty then [] else [acc.reverse]
  | c :: rest, acc =>
    if isSep c then
      if acc.isEmpty then splitGo rest [] else acc.reverse :: splitGo rest []
    else
      match acc with
      | a :: _ =>
        if a.isLower && c.isUpper then acc.reverse :: splitGo rest [c]
        else splitGo rest (c :: acc)
      | [] => splitGo rest [c]

/-- Modelled from the spec: the lowercase snake conversion performed by
`to_case(Case::Snake)`. -/
def toSnake (s : String) : String :=
  String.intercalate ("_") ((splitGo s.data []).map (fun w => String.mk (w.map Char.toLower)))

/-- Modelled from the spec: the capitalized Pascal conversion performed by
`to_case(Case::Pascal)`. -/
def toPascal (s : String) : String :=
  String.join ((splitGo s.data []).map (fun w =>
    match w with
    | [] => String.mk []
    | c :: rest => String.mk (c.toUpper :: rest.map Char.toLower)))

/-- `PrimitiveType` in `ag.rs`. -/
inductive PrimitiveType where
  | bool
  | u8
  | u16
  | u32
  | u64
  | i8
  | i16
  | i32
  | i64
  | f32
  | f64
  | string
deriving DecidableEq

/-- `TypeReference` in `ag.rs`. -/
inductive TypeReference where
  | primitive (p : PrimitiveType)
deriving DecidableEq

/-- `EnumVariant` in `ag.rs`. -/
structure EnumVariant where
  name : String
  index : Option Nat
  docs : String
deriving DecidableEq

/-- `StructField` in `ag.rs`. -/
structure StructField where
  name : String
  ty : TypeReference
  docs : String
deriving DecidableEq

/-- `Item` in `ag.rs`. -/
inductive Item where
  | enumItem (name : String) (variants : List EnumVariant) (docs : String)
  | classItem (name : String) (docs : String)
  | structItem (name : String) (fields : List StructField) (has_default : Bool) (docs : String)
deriving DecidableEq

/-- `Item::name`. -/
def Item.name : Item → String
  | Item.enumItem n _ _ => n
  | Item.classItem n _ => n
  | Item.structItem n _ _ _ => n

/-- `Item::cs_name`. -/
def Item.cs_name (it : Item) : String := it.name

/-- `Item::rs_name`. -/
def Item.rs_name (it : Item) : String := "Vx" ++ it.name

/-- `Item::rs_fn_name`. -/
def Item.rs_fn_name (it : Item) : String := toSnake it.name

/-- `StructField::cs_name`. -/
def StructField.cs_name (f : StructField) : String := toPascal f.name

/-- `StructField::rs_name`. -/
def StructField.rs_name (f : StructField) : String := f.name

/-- The fixed four-space indent unit. -/
def spaces4 : List Char := [' ', ' ', ' ', ' ']

/-- `str::trim_end` at the character level. -/
def trimEndL (l : List Char) : List Char :=
  ((l.reverse).dropWhile Char.isWhitespace).reverse

/-- `str::replace("\n", "\n    ")` at the character level. -/
def replaceNl : List Char → List Char
  | [] => []
  | c :: rest =>
    if c = '\n' then '\n' :: (spaces4 ++ replaceNl rest)
    else c :: replaceNl rest

/-- `indent` in `ag.rs`: the empty string stays empty; otherwise trim
trailing whitespace, reinsert the indent after every newline, and prepend
the indent and append a final newline. -/
def indent (value : String) : String :=
  if value.data = [] then ""
  else String.mk (spaces4 ++ replaceNl (trimEndL value.data) ++ ['\n'])

end Ag

namespace EguiBindgen

/-- Modelled from the spec: the classification criterion the claim and
the spec state — the field's TYPE (not the field's own name) resolves in
the Known-Type Registry to a transferable entry.  A primitive type's
registry spelling is its name; the generator's code never reads the
field's `Type` payload, which is exactly what the C1 bug exposes. -/
def field_type_resolves (k : Krate) (kts : List (String × KnownType)) (f : DeclId) : Bool :=
  match getIndex k f with
  | Except.error _ => false
  | Except.ok it =>
    match it.inner with
    | ItemEnum.structFieldK ty =>
      match ty with
      | RdType.primitive n =>
        match lookupKT kts n with
        | some kt => decide (kt.kind = TypeKind.copy)
        | none => false
      | RdType.otherTy => false
    | _ => false

/-- A variant id is well formed: it resolves to a named `Variant` item. -/
def VariantWf (k : Krate) (v : DeclId) : Prop :=
  ∃ it vd, getIndex k v = Except.ok it ∧ it.inner = ItemEnum.variantK vd ∧
    it.name.isSome = true

/-- A variant id resolves to a `Variant` item of plain shape. -/
def VariantPlain (k : Krate) (v : DeclId) : Prop :=
  ∃ it vd, getIndex k v = Except.ok it ∧ it.inner = ItemEnum.variantK vd ∧
    vd.kind = VariantKind.plain

/-- The id resolves to an enum declaration. -/
def IsEnumId (k : Krate) (x : DeclId) : Prop :=
  ∃ it ed, getIndex k x = Except.ok it ∧ it.inner = ItemEnum.enumK ed

/-- The id resolves to a struct declaration. -/
def IsStructId (k : Krate) (x : DeclId) : Prop :=
  ∃ it sd, getIndex k x = Except.ok it ∧ it.inner = ItemEnum.structK sd

/-- No worklist entry other than `i` carries the registry key `rn0`. -/
def NameUnique (k : Krate) (w : List DeclId) (i : DeclId) (rn0 : String) : Prop :=
  ∀ x ∈ w, ∀ itx, getIndex k x = Except.ok itx → itx.name.getD ("") = rn0 → x = i

/-- Between two registry snapshots, every present key stays present, and
its value either survives unchanged or was overwritten by a classifier
insertion, which is always transferable and displays its own key. -/
def SelfCopyEvolves (m m2 : List (String × KnownType)) : Prop :=
  ∀ key v, lookupKT m key = some v →
    ∃ v2, lookupKT m2 key = some v2 ∧
      (v2 = v ∨ (v2.cs_name = key ∧ v2.kind = TypeKind.copy))

/-- The registry key a declaration registers under (`rust_name`, with the
empty string for a missing item or name). -/
def nameKey (k : Krate) (x : DeclId) : String :=
  match getIndex k x with
  | Except.ok it => it.name.getD ("")
  | Except.error _ => ""

/-- The state-independent test the enum pass applies: the id is an enum
declaration all of whose variants are plain. -/
def enumClassB (k : Krate) (x : DeclId) : Bool :=
  match getIndex k x with
  | Except.ok it =>
    match it.inner with
    | ItemEnum.enumK ed => decide (is_primitive_enum k ed.variants = Except.ok true)
    | _ => false
  | Except.error _ => false

/-- The key resolves in the registry to a transferable entry. -/
def CKb (m : List (String × KnownType)) (key : String) : Bool :=
  match lookupKT m key with
  | some kt => decide (kt.kind = TypeKind.copy)
  | none => false

/-- The field list of a plain struct declaration without stripped fields;
`none` for everything the struct classifier refuses outright. -/
def structPlainFields (k : Krate) (x : DeclId) : Option (List DeclId) :=
  match getIndex k x with
  | Except.ok it =>
    match it.inner with
    | ItemEnum.structK sd =>
      match sd.kind with
      | StructKind.plain fields has_stripped_fields =>
        if has_stripped_fields then none else some fields
      | _ => none
    | _ => none
  | Except.error _ => none

/-- The registry keys the struct fixed-point iteration can ever make
transferable, as a least fixed point over the worklist regarded as a set:
keys transferable at the start, plus the name of any worklist struct all
of whose fields exist in the index and carry reachable lookup keys.
Membership-based, so it is invariant under reordering the worklist. -/
inductive ReachKey (k : Krate) (m0 : List (String × KnownType)) (w : List DeclId) :
    String → Prop where
  | base (key : String) (h : CKb m0 key = true) : ReachKey k m0 w key
  | step (x : DeclId) (fields : List DeclId) (hx : x ∈ w)
      (hf : structPlainFields k x = some fields)
      (hok : ∀ f ∈ fields, (getIndex k f).isOk = true)
      (hall : ∀ f ∈ fields, ReachKey k m0 w (nameKey k f)) :
      ReachKey k m0 w (nameKey k x)

/-- A worklist struct the fixed-point iteration eventually classifies:
plain, not stripped, and every field id resolves to an item whose lookup
key is reachable. -/
def EvClass (k : Krate) (m0 : List (String × KnownType)) (w : List DeclId)
    (x : DeclId) : Prop :=
  x ∈ w ∧ ∃ fields, structPlainFields k x = some fields ∧
    (∀ f ∈ fields, (getIndex k f).isOk = true) ∧
    ∀ f ∈ fields, ReachKey k m0 w (nameKey k f)

/-- Invariant of the struct fixed-point iteration: every key's entry is
either still the starting entry or a self-named transferable entry whose
key is reachable. -/
def RInv (k : Krate) (m0 : List (String × KnownType)) (w : List DeclId)
    (m : List (String × KnownType)) : Prop :=
  ∀ key, lookupKT m key = lookupKT m0 key ∨
    (lookupKT m key = some (KnownType.mk key TypeKind.copy) ∧ ReachKey k m0 w key)

/-- Example index: a plain struct `Point` whose two field items happen to
carry names that the code's name-keyed lookup finds in the seeded
registry, so this struct does classify. -/
def kPoint : Krate :=
  [Item.mk 0 (some ("Point")) none (ItemEnum.structK (StructData.mk (StructKind.plain [1, 2] false))),
   Item.mk 1 (some ("f32")) none (ItemEnum.structFieldK (RdType.primitive ("f32"))),
   Item.mk 2 (some ("f64")) none (ItemEnum.structFieldK (RdType.primitive ("f32")))]

/-- The spec's own end-to-end scenario: `Point { x: f32, y: f32 }`, both
field types seeded transferable, fields named as real rustdoc names them
(by the field identifier, not the type). -/
def kPointSpec : Krate :=
  [Item.mk 0 (some ("Point")) none (ItemEnum.structK (StructData.mk (StructKind.plain [1, 2] false))),
   Item.mk 1 (some ("x")) none (ItemEnum.structFieldK (RdType.primitive ("f32"))),
   Item.mk 2 (some ("y")) none (ItemEnum.structFieldK (RdType.primitive ("f32")))]

/-- Two all-plain enums `A` and `B` with one variant each, listed in the
order A before B — one iteration order of the declaration map. -/
def kOrderAB : Krate :=
  [Item.mk 0 (some ("A")) none (ItemEnum.enumK (EnumData.mk [1])),
   Item.mk 1 (some ("X")) none (ItemEnum.variantK (VariantData.mk VariantKind.plain none)),
   Item.mk 2 (some ("B")) none (ItemEnum.enumK (EnumData.mk [3])),
   Item.mk 3 (some ("Y")) none (ItemEnum.variantK (VariantData.mk VariantKind.plain none))]

/-- The same four declarations — the identical map — in the other
iteration order, B before A. -/
def kOrderBA : Krate :=
  [Item.mk 2 (some ("B")) none (ItemEnum.enumK (EnumData.mk [3])),
   Item.mk 3 (some ("Y")) none (ItemEnum.variantK (VariantData.mk VariantKind.plain none)),
   Item.mk 0 (some ("A")) none (ItemEnum.enumK (EnumData.mk [1])),
   Item.mk 1 (some ("X")) none (ItemEnum.variantK (VariantData.mk VariantKind.plain none))]

/-- The final state of the run over `kOrderAB`: both enums classified,
`A` written to the buffer before `B`. -/
def stateAB : BCtx :=
  BCtx.mk
    (insertKT (insertKT default_known_types ("A") (KnownType.mk ("A") TypeKind.copy))
      ("B") (KnownType.mk ("B") TypeKind.copy))
    ("public enum A\n\x7b\n    X,\n\x7d\n\npublic enum B\n\x7b\n    Y,\n\x7d\n\n")

/-- The final state of the run over `kOrderBA`: the same two enums
classified, `B` written to the buffer before `A`. -/
def stateBA : BCtx :=
  BCtx.mk
    (insertKT (insertKT default_known_types ("B") (KnownType.mk ("B") TypeKind.copy))
      ("A") (KnownType.mk ("A") TypeKind.copy))
    ("public enum B\n\x7b\n    Y,\n\x7d\n\npublic enum A\n\x7b\n    X,\n\x7d\n\n")

/-- Example index: an enum `Color` with two plain variants, one with an
explicit discriminant. -/
def kColor : Krate :=
  [Item.mk 0 (some ("Color")) none (ItemEnum.enumK (EnumData.mk [1, 2])),
   Item.mk 1 (some ("Red")) none (ItemEnum.variantK (VariantData.mk VariantKind.plain none)),
   Item.mk 2 (some ("Green")) none
     (ItemEnum.variantK (VariantData.mk VariantKind.plain (some (Discriminant.mk ("5") ("5")))))]

/-- Example index: a plain struct with stripped (hidden) fields. -/
def kHidden : Krate :=
  [Item.mk 0 (some ("Hidden")) none (ItemEnum.structK (StructData.mk (StructKind.plain [] true)))]

/-- Example index: a zero-field plain struct named `i32`, colliding with a
seeded builtin registry key. -/
def kShadow : Krate :=
  [Item.mk 0 (some ("i32")) none (ItemEnum.structK (StructData.mk (StructKind.plain [] false)))]

/-- Example index: a zero-field plain struct with no name at all. -/
def kUnnamed : Krate :=
  [Item.mk 0 none none (ItemEnum.structK (StructData.mk (StructKind.plain [] false)))]

/-- Example index: an unnamed all-plain enum next to an unnamed struct. -/
def kNoName : Krate :=
  [Item.mk 0 none none (ItemEnum.enumK (EnumData.mk [1])),
   Item.mk 1 (some ("A")) none (ItemEnum.variantK (VariantData.mk VariantKind.plain none)),
   Item.mk 2 none none (ItemEnum.structK (StructData.mk (StructKind.plain [] false)))]

end EguiBindgen

namespace EguiBindgen

theorem getIndex_ok_id {k : Krate} {i : DeclId} {it : Item}
    (h : getIndex k i = Except.ok it) : it.id = i := by
  unfold getIndex at h
  cases hf : List.find? (fun j => j.id == i) k with
  | none => rw [hf] at h; cases h
  | some a =>
    rw [hf] at h
    cases h
    have hp := List.find?_some hf
    simpa using hp

theorem lookupKT_insertKT (m : List (String × KnownType)) (key : String) (v : KnownType)
    (key2 : String) :
    lookupKT (insertKT m key v) key2 = if key2 = key then some v else lookupKT m key2 := by
  by_cases h : key2 = key
  · simp [lookupKT, insertKT, List.lookup, h]
  · have hb : (key2 == key) = false := beq_eq_false_iff_ne.mpr h
    simp [lookupKT, insertKT, List.lookup, hb, h]

theorem ckb_iff (m : List (String × KnownType)) (key : String) :
    CKb m key = true ↔ ∃ kt, lookupKT m key = some kt ∧ kt.kind = TypeKind.copy := by
  unfold CKb
  cases hl : lookupKT m key with
  | none => simp
  | some kt => simp

theorem fields_all_copy_ok_of_forall (k : Krate) (kts : List (String × KnownType)) :
    ∀ (fs : List DeclId),
      (∀ f ∈ fs, ∃ itf, getIndex k f = Except.ok itf ∧
        CKb kts (itf.name.getD ("")) = true) →
      fields_all_copy k kts fs = Except.ok true := by
  intro fs
  induction fs with
  | nil => intro _; rfl
  | cons f rest ih =>
    intro h
    rcases h f (by simp) with ⟨itf, hg, hck⟩
    rcases (ckb_iff kts (itf.name.getD (""))).mp hck with ⟨kt, hl, hc⟩
    have hr := ih (fun y hy => h y (List.mem_cons_of_mem f hy))
    simp [fields_all_copy, rust_name, hg, hl, hc, hr]

theorem forall_of_fields_all_copy_ok (k : Krate) (kts : List (String × KnownType)) :
    ∀ (fs : List DeclId), fields_all_copy k kts fs = Except.ok true →
      ∀ f ∈ fs, ∃ itf, getIndex k f = Except.ok itf ∧
        CKb kts (itf.name.getD ("")) = true := by
  intro fs
  induction fs with
  | nil => intro _ f hf; cases hf
  | cons f rest ih =>
    intro h x hx
    cases hg : getIndex k f with
    | error e =>
      have he : fields_all_copy k kts (f :: rest) = Except.error e := by
        simp [fields_all_copy, rust_name, hg]
      rw [he] at h; cases h
    | ok itf =>
      cases hl : lookupKT kts (itf.name.getD ("")) with
      | none =>
        have he : fields_all_copy k kts (f :: rest) = Except.ok false := by
          simp [fields_all_copy, rust_name, hg, hl]
        rw [he] at h
        injection h with h
        cases h
      | some kt =>
        by_cases hc : kt.kind = TypeKind.copy
        · have he : fields_all_copy k kts (f :: rest) = fields_all_copy k kts rest := by
            simp [fields_all_copy, rust_name, hg, hl, hc]
          rw [he] at h
          rcases List.mem_cons.mp hx with rfl | hx
          · exact ⟨itf, hg, (ckb_iff kts (itf.name.getD (""))).mpr ⟨kt, hl, hc⟩⟩
          · exact ih h x hx
        · have he : fields_all_copy k kts (f :: rest) = Except.ok false := by
            simp [fields_all_copy, rust_name, hg, hl, hc]
          rw [he] at h
          injection h with h
          cases h

/-- C1: the code deviates from the claim on the spec's own end-to-end
scenario.  In `kPointSpec` — `Point { x: f32, y: f32 }`, no stripped
fields, both field types seeded transferable — each field's type resolves
in the registry to a transferable entry, yet the classifier looks the
fields up by their own names (`x`, `y`), misses, leaves `Point` pending
through the whole run and never registers it, while the claim (and the
spec) requires it to be classified trivially transferable. -/
theorem struct_field_type_lookup_bug :
    field_type_resolves kPointSpec initial_state.known_types 1 = true ∧
    field_type_resolves kPointSpec initial_state.known_types 2 = true ∧
    generate_primitive_struct kPointSpec initial_state 0 =
      Except.ok (initial_state, false) ∧
    generate kPointSpec initial_state (initial_remaining kPointSpec) =
      Except.ok (initial_state, [0]) ∧
    lookupKT initial_state.known_types ("Point") = none := by
  refine ⟨by decide, by decide, by decide, by decide, by decide⟩

theorem gps_cases (k : Krate) (s : BCtx) (i : DeclId) :
    (∃ e, generate_primitive_struct k s i = Except.error e) ∨
    (generate_primitive_struct k s i = Except.ok (s, false)) ∨
    (∃ it, getIndex k i = Except.ok it ∧
      generate_primitive_struct k s i =
        Except.ok
          (BCtx.mk
            (insertKT s.known_types (it.name.getD (""))
              (KnownType.mk (it.name.getD ("")) TypeKind.copy)) s.result, true)) := by
  cases hg : getIndex k i with
  | error e => exact Or.inl ⟨e, by simp [generate_primitive_struct, hg]⟩
  | ok it =>
    cases hin : it.inner
    case structK sd =>
      cases hk : sd.kind with
      | plain fields stripped =>
        cases stripped with
        | true => exact Or.inr (Or.inl (by simp [generate_primitive_struct, hg, hin, hk]))
        | false =>
          cases hfc : fields_all_copy k s.known_types fields with
          | error e =>
            exact Or.inl ⟨e, by simp [generate_primitive_struct, hg, hin, hk, hfc]⟩
          | ok b =>
            cases b with
            | false =>
              exact Or.inr (Or.inl (by simp [generate_primitive_struct, hg, hin, hk, hfc]))
            | true =>
              exact Or.inr (Or.inr ⟨it, rfl,
                by simp [generate_primitive_struct, hg, hin, hk, hfc, rust_name]⟩)
      | tuple => exact Or.inr (Or.inl (by simp [generate_primitive_struct, hg, hin, hk]))
      | unitK => exact Or.inr (Or.inl (by simp [generate_primitive_struct, hg, hin, hk]))
    all_goals
      exact Or.inl ⟨"unreachable", by simp [generate_primitive_struct, hg, hin]⟩

theorem gps_false {k : Krate} {s s1 : BCtx} {i : DeclId}
    (h : generate_primitive_struct k s i = Except.ok (s1, false)) : s1 = s := by
  rcases gps_cases k s i with ⟨e, he⟩ | hf | ⟨it, _, ht⟩
  · rw [he] at h; cases h
  · rw [hf] at h
    injection h with h
    injection h with h1 h2
    exact h1.symm
  · rw [ht] at h
    injection h with h
    injection h with h1 h2
    cases h2

theorem gps_true_shape {k : Krate} {s s1 : BCtx} {i : DeclId}
    (h : generate_primitive_struct k s i = Except.ok (s1, true)) :
    ∃ it, getIndex k i = Except.ok it ∧
      s1 = BCtx.mk
        (insertKT s.known_types (it.name.getD (""))
          (KnownType.mk (it.name.getD ("")) TypeKind.copy)) s.result := by
  rcases gps_cases k s i with ⟨e, he⟩ | hf | ⟨it, hg, ht⟩
  · rw [he] at h; cases h
  · rw [hf] at h
    injection h with h
    injection h with h1 h2
    cases h2
  · rw [ht] at h
    injection h with h
    injection h with h1 h2
    exact ⟨it, hg, h1.symm⟩

theorem struct_pass_cons_nonstruct (k : Krate) (s : BCtx) (x : DeclId) (rest : List DeclId)
    (it : Item) (hg : getIndex k x = Except.ok it)
    (hns : ∀ sd, it.inner ≠ ItemEnum.structK sd) :
    struct_pass k s (x :: rest) =
      match struct_pass k s rest with
      | Except.error e => Except.error e
      | Except.ok (s2, rest2) => Except.ok (s2, x :: rest2) := by
  cases hin : it.inner
  case structK sd => exact absurd hin (hns sd)
  all_goals simp [struct_pass, hg, hin]

theorem struct_pass_cons_struct (k : Krate) (s : BCtx) (x : DeclId) (rest : List DeclId)
    (it : Item) (sd : StructData) (hg : getIndex k x = Except.ok it)
    (hsd : it.inner = ItemEnum.structK sd) :
    struct_pass k s (x :: rest) =
      match generate_primitive_struct k s x with
      | Except.error e => Except.error e
      | Except.ok (s1, b) =>
        match struct_pass k s1 rest with
        | Except.error e => Except.error e
        | Except.ok (s2, rest2) => Except.ok (s2, if b then rest2 else x :: rest2) := by
  have hid : it.id = x := getIndex_ok_id hg
  simp [struct_pass, hg, hsd, hid]

theorem struct_pass_length_le (k : Krate) :
    ∀ (w : List DeclId) (s s2 : BCtx) (w2 : List DeclId),
      struct_pass k s w = Except.ok (s2, w2) → w2.length ≤ w.length := by
  intro w
  induction w with
  | nil =>
    intro s s2 w2 h
    simp only [struct_pass] at h
    injection h with h
    injection h with h1 h2
    simp [← h2]
  | cons x rest ih =>
    intro s s2 w2 h
    cases hg : getIndex k x with
    | error e =>
      have : struct_pass k s (x :: rest) = Except.error e := by simp [struct_pass, hg]
      rw [this] at h; cases h
    | ok it =>
      by_cases hstruct : ∃ sd, it.inner = ItemEnum.structK sd
      · rcases hstruct with ⟨sd, hsd⟩
        rw [struct_pass_cons_struct k s x rest it sd hg hsd] at h
        cases hgen : generate_primitive_struct k s x with
        | error e => rw [hgen] at h; simp at h
        | ok p =>
          rcases p with ⟨s1, b⟩
          rw [hgen] at h
          simp only at h
          cases hrec : struct_pass k s1 rest with
          | error e => rw [hrec] at h; simp at h
          | ok q =>
            rcases q with ⟨s3, rest2⟩
            rw [hrec] at h
            simp only at h
            injection h with h
            injection h with h1 h2
            have hle := ih s1 s3 rest2 hrec
            cases b with
            | true => simp only [if_true] at h2; subst h2; exact Nat.le_succ_of_le hle
            | false =>
              simp only [Bool.false_eq_true, if_false] at h2
              subst h2
              simpa using Nat.succ_le_succ hle
      · have hns : ∀ sd, it.inner ≠ ItemEnum.structK sd := by
          intro sd hc; exact hstruct ⟨sd, hc⟩
        rw [struct_pass_cons_nonstruct k s x rest it hg hns] at h
        cases hrec : struct_pass k s rest with
        | error e => rw [hrec] at h; simp at h
        | ok q =>
          rcases q with ⟨s3, rest2⟩
          rw [hrec] at h
          simp only at h
          injection h with h
          injection h with h1 h2
          have hle := ih s s3 rest2 hrec
          subst h2
          simpa using Nat.succ_le_succ hle

theorem struct_pass_subset (k : Krate) :
    ∀ (w : List DeclId) (s s2 : BCtx) (w2 : List DeclId),
      struct_pass k s w = Except.ok (s2, w2) → ∀ y ∈ w2, y ∈ w := by
  intro w
  induction w with
  | nil =>
    intro s s2 w2 h
    simp only [struct_pass] at h
    injection h with h
    injection h with h1 h2
    subst h2
    intro y hy; cases hy
  | cons x rest ih =>
    intro s s2 w2 h
    cases hg : getIndex k x with
    | error e =>
      have : struct_pass k s (x :: rest) = Except.error e := by simp [struct_pass, hg]
      rw [this] at h; cases h
    | ok it =>
      by_cases hstruct : ∃ sd, it.inner = ItemEnum.structK sd
      · rcases hstruct with ⟨sd, hsd⟩
        rw [struct_pass_cons_struct k s x rest it sd hg hsd] at h
        cases hgen : generate_primitive_struct k s x with
        | error e => rw [hgen] at h; simp at h
        | ok p =>
          rcases p with ⟨s1, b⟩
          rw [hgen] at h
          simp only at h
          cases hrec : struct_pass k s1 rest with
          | error e => rw [hrec] at h; simp at h
          | ok q =>
            rcases q with ⟨s3, rest2⟩
            rw [hrec] at h
            simp only at h
            injection h with h
            injection h with h1 h2
            cases b with
            | true =>
              simp only [if_true] at h2
              subst h2
              intro y hy
              exact List.mem_cons_of_mem x (ih s1 s3 rest2 hrec y hy)
            | false =>
              simp only [Bool.false_eq_true, if_false] at h2
              subst h2
              intro y hy
              rcases List.mem_cons.mp hy with hy | hy
              · rw [hy]; exact List.mem_cons_self x rest
              · exact List.mem_cons_of_mem x (ih s1 s3 rest2 hrec y hy)
      · have hns : ∀ sd, it.inner ≠ ItemEnum.structK sd := by
          intro sd hc; exact hstruct ⟨sd, hc⟩
        rw [struct_pass_cons_nonstruct k s x rest it hg hns] at h
        cases hrec : struct_pass k s rest with
        | error e => rw [hrec] at h; simp at h
        | ok q =>
          rcases q with ⟨s3, rest2⟩
          rw [hrec] at h
          simp only at h
          injection h with h
          injection h with h1 h2
          subst h2
          intro y hy
          rcases List.mem_cons.mp hy with hy | hy
          · rw [hy]; exact List.mem_cons_self x rest
          · exact List.mem_cons_of_mem x (ih s s3 rest2 hrec y hy)

theorem struct_pass_no_progress (k : Krate) :
    ∀ (w : List DeclId) (s s2 : BCtx) (w2 : List DeclId),
      struct_pass k s w = Except.ok (s2, w2) → w2.length = w.length →
      s2 = s ∧ w2 = w := by
  intro w
  induction w with
  | nil =>
    intro s s2 w2 h _
    simp only [struct_pass] at h
    injection h with h
    injection h with h1 h2
    exact ⟨h1.symm, h2.symm⟩
  | cons x rest ih =>
    intro s s2 w2 h hlen
    cases hg : getIndex k x with
    | error e =>
      have : struct_pass k s (x :: rest) = Except.error e := by simp [struct_pass, hg]
      rw [this] at h; cases h
    | ok it =>
      by_cases hstruct : ∃ sd, it.inner = ItemEnum.structK sd
      · rcases hstruct with ⟨sd, hsd⟩
        rw [struct_pass_cons_struct k s x rest it sd hg hsd] at h
        cases hgen : generate_primitive_struct k s x with
        | error e => rw [hgen] at h; simp at h
        | ok p =>
          rcases p with ⟨s1, b⟩
          rw [hgen] at h
          simp only at h
          cases hrec : struct_pass k s1 rest with
          | error e => rw [hrec] at h; simp at h
          | ok q =>
            rcases q with ⟨s3, rest2⟩
            rw [hrec] at h
            simp only at h
            injection h with h
            injection h with h1 h2
            cases b with
            | true =>
              simp only [if_true] at h2
              subst h2
              have hle := struct_pass_length_le k rest s1 s3 rest2 hrec
              simp only [List.length_cons] at hlen
              omega
            | false =>
              simp only [Bool.false_eq_true, if_false] at h2
              have hs1 : s1 = s := gps_false hgen
              rw [hs1] at hrec
              subst h2
              simp only [List.length_cons] at hlen
              have hlen2 : rest2.length = rest.length := by omega
              rcases ih s s3 rest2 hrec hlen2 with ⟨ha, hb⟩
              exact ⟨h1.symm.trans ha, by rw [hb]⟩
      · have hns : ∀ sd, it.inner ≠ ItemEnum.structK sd := by
          intro sd hc; exact hstruct ⟨sd, hc⟩
        rw [struct_pass_cons_nonstruct k s x rest it hg hns] at h
        cases hrec : struct_pass k s rest with
        | error e => rw [hrec] at h; simp at h
        | ok q =>
          rcases q with ⟨s3, rest2⟩
          rw [hrec] at h
          simp only at h
          injection h with h
          injection h with h1 h2
          subst h2
          simp only [List.length_cons] at hlen
          have hlen2 : rest2.length = rest.length := by omega
          rcases ih s s3 rest2 hrec hlen2 with ⟨ha, hb⟩
          exact ⟨h1.symm.trans ha, by rw [hb]⟩

theorem struct_loop_fuel_irrel (k : Krate) :
    ∀ (n m : Nat) (s : BCtx) (w : List DeclId), w.length < n → w.length < m →
      struct_loop_fuel k n s w = struct_loop_fuel k m s w := by
  intro n
  induction n using Nat.strong_induction_on with
  | _ n ih =>
    intro m s w hn hm
    cases n with
    | zero => omega
    | succ n0 =>
      cases m with
      | zero => omega
      | succ m0 =>
        simp only [struct_loop_fuel]
        cases hp : struct_pass k s w with
        | error e => rfl
        | ok p =>
          dsimp only
          by_cases hlen : p.2.length = w.length
          · rw [if_pos hlen, if_pos hlen]
          · rw [if_neg hlen, if_neg hlen]
            have hle := struct_pass_length_le k w s p.1 p.2 (by rw [hp])
            have hlt : p.2.length < w.length := Nat.lt_of_le_of_ne hle hlen
            exact ih n0 (Nat.lt_succ_self n0) m0 p.1 p.2 (by omega) (by omega)

theorem struct_loop_fuel_fixed (k : Krate) :
    ∀ (n : Nat) (s : BCtx) (w : List DeclId) (s2 : BCtx) (w2 : List DeclId),
      w.length < n → struct_loop_fuel k n s w = Except.ok (s2, w2) →
      struct_pass k s2 w2 = Except.ok (s2, w2) ∧ w2.length ≤ w.length := by
  intro n
  induction n using Nat.strong_induction_on with
  | _ n ih =>
    intro s w s2 w2 hn h
    cases n with
    | zero => omega
    | succ n0 =>
      simp only [struct_loop_fuel] at h
      cases hp : struct_pass k s w with
      | error e => rw [hp] at h; cases h
      | ok p =>
        rw [hp] at h
        simp only at h
        by_cases hlen : p.2.length = w.length
        · rw [if_pos hlen] at h
          injection h with h
          rcases struct_pass_no_progress k w s p.1 p.2 hp hlen with ⟨ha, hb⟩
          have hps : p = (s2, w2) := h
          subst hps
          simp only at ha hb hlen
          constructor
          · rw [ha, hb]; rw [ha, hb] at hp; exact hp
          · exact Nat.le_of_eq hlen
        · rw [if_neg hlen] at h
          have hle := struct_pass_length_le k w s p.1 p.2 hp
          have hlt : p.2.length < w.length := Nat.lt_of_le_of_ne hle hlen
          rcases ih n0 (Nat.lt_succ_self n0) p.1 p.2 s2 w2 (by omega) h with ⟨hfix, hle2⟩
          exact ⟨hfix, Nat.le_trans hle2 hle⟩

theorem gpe_cases (k : Krate) (s : BCtx) (i : DeclId) :
    (∃ e, generate_primitive_enum k s i = Except.error e) ∨
    (generate_primitive_enum k s i = Except.ok (s, false)) ∨
    (∃ it nm r3, getIndex k i = Except.ok it ∧ it.name = some nm ∧
      generate_primitive_enum k s i =
        Except.ok
          (BCtx.mk (insertKT s.known_types nm (KnownType.mk nm TypeKind.copy)) r3, true)) := by
  cases hg : getIndex k i with
  | error e => exact Or.inl ⟨e, by simp [generate_primitive_enum, hg]⟩
  | ok it =>
    cases hin : it.inner
    case enumK ed =>
      cases hprim : is_primitive_enum k ed.variants with
      | error e => exact Or.inl ⟨e, by simp [generate_primitive_enum, hg, hin, hprim]⟩
      | ok prim =>
        cases prim with
        | false =>
          exact Or.inr (Or.inl (by simp [generate_primitive_enum, hg, hin, hprim]))
        | true =>
          cases hnm : it.name with
          | none =>
            exact Or.inl ⟨"Item did not have name",
              by simp [generate_primitive_enum, hg, hin, hprim, hnm, expectName]⟩
          | some nm =>
            cases hem : emit_variants k ed.variants
                (write_summary_doc it.docs 0 s.result ++ "public enum " ++ nm ++ "\n\x7b\n") with
            | error e =>
              exact Or.inl ⟨e,
                by simp [generate_primitive_enum, hg, hin, hprim, hnm, expectName, hem]⟩
            | ok r2 =>
              refine Or.inr (Or.inr ⟨it, nm, r2 ++ "\x7d\n\n", rfl, hnm, ?_⟩)
              simp [generate_primitive_enum, hg, hin, hprim, hnm, expectName, hem, rust_name]
    all_goals
      exact Or.inl ⟨"unreachable", by simp [generate_primitive_enum, hg, hin]⟩

theorem gpe_false {k : Krate} {s s1 : BCtx} {i : DeclId}
    (h : generate_primitive_enum k s i = Except.ok (s1, false)) : s1 = s := by
  rcases gpe_cases k s i with ⟨e, he⟩ | hf | ⟨it, nm, r3, _, _, ht⟩
  · rw [he] at h; cases h
  · rw [hf] at h
    injection h with h
    injection h with h1 h2
    exact h1.symm
  · rw [ht] at h
    injection h with h
    injection h with h1 h2
    cases h2

theorem gpe_true_shape {k : Krate} {s s1 : BCtx} {i : DeclId}
    (h : generate_primitive_enum k s i = Except.ok (s1, true)) :
    ∃ it nm r3, getIndex k i = Except.ok it ∧ it.name = some nm ∧
      s1 = BCtx.mk (insertKT s.known_types nm (KnownType.mk nm TypeKind.copy)) r3 := by
  rcases gpe_cases k s i with ⟨e, he⟩ | hf | ⟨it, nm, r3, hg, hnm, ht⟩
  · rw [he] at h; cases h
  · rw [hf] at h
    injection h with h
    injection h with h1 h2
    cases h2
  · rw [ht] at h
    injection h with h
    injection h with h1 h2
    exact ⟨it, nm, r3, hg, hnm, h1.symm⟩

theorem enum_pass_cons_nonenum (k : Krate) (s : BCtx) (x : DeclId) (rest : List DeclId)
    (it : Item) (hg : getIndex k x = Except.ok it)
    (hne : ∀ ed, it.inner ≠ ItemEnum.enumK ed) :
    enum_pass k s (x :: rest) =
      match enum_pass k s rest with
      | Except.error e => Except.error e
      | Except.ok (s2, rest2) => Except.ok (s2, x :: rest2) := by
  cases hin : it.inner
  case enumK ed => exact absurd hin (hne ed)
  all_goals simp [enum_pass, hg, hin]

theorem enum_pass_cons_enum (k : Krate) (s : BCtx) (x : DeclId) (rest : List DeclId)
    (it : Item) (ed : EnumData) (hg : getIndex k x = Except.ok it)
    (hed : it.inner = ItemEnum.enumK ed) :
    enum_pass k s (x :: rest) =
      match generate_primitive_enum k s x with
      | Except.error e => Except.error e
      | Except.ok (s1, b) =>
        match enum_pass k s1 rest with
        | Except.error e => Except.error e
        | Except.ok (s2, rest2) => Except.ok (s2, if b then rest2 else x :: rest2) := by
  have hid : it.id = x := getIndex_ok_id hg
  simp [enum_pass, hg, hed, hid]

theorem enum_pass_subset (k : Krate) :
    ∀ (w : List DeclId) (s s2 : BCtx) (w2 : List DeclId),
      enum_pass k s w = Except.ok (s2, w2) → ∀ y ∈ w2, y ∈ w := by
  intro w
  induction w with
  | nil =>
    intro s s2 w2 h
    simp only [enum_pass] at h
    injection h with h
    injection h with h1 h2
    subst h2
    intro y hy; cases hy
  | cons x rest ih =>
    intro s s2 w2 h
    cases hg : getIndex k x with
    | error e =>
      have : enum_pass k s (x :: rest) = Except.error e := by simp [enum_pass, hg]
      rw [this] at h; cases h
    | ok it =>
      by_cases henum : ∃ ed, it.inner = ItemEnum.enumK ed
      · rcases henum with ⟨ed, hed⟩
        rw [enum_pass_cons_enum k s x rest it ed hg hed] at h
        cases hgen : generate_primitive_enum k s x with
        | error e => rw [hgen] at h; simp at h
        | ok p =>
          rcases p with ⟨s1, b⟩
          rw [hgen] at h
          simp only at h
          cases hrec : enum_pass k s1 rest with
          | error e => rw [hrec] at h; simp at h
          | ok q =>
            rcases q with ⟨s3, rest2⟩
            rw [hrec] at h
            simp only at h
            injection h with h
            injection h with h1 h2
            cases b with
            | true =>
              simp only [if_true] at h2
              subst h2
              intro y hy
              exact List.mem_cons_of_mem x (ih s1 s3 rest2 hrec y hy)
            | false =>
              simp only [Bool.false_eq_true, if_false] at h2
              subst h2
              intro y hy
              rcases List.mem_cons.mp hy with hy | hy
              · rw [hy]; exact List.mem_cons_self x rest
              · exact List.mem_cons_of_mem x (ih s1 s3 rest2 hrec y hy)
      · have hne : ∀ ed, it.inner ≠ ItemEnum.enumK ed := by
          intro ed hc; exact henum ⟨ed, hc⟩
        rw [enum_pass_cons_nonenum k s x rest it hg hne] at h
        cases hrec : enum_pass k s rest with
        | error e => rw [hrec] at h; simp at h
        | ok q =>
          rcases q with ⟨s3, rest2⟩
          rw [hrec] at h
          simp only at h
          injection h with h
          injection h with h1 h2
          subst h2
          intro y hy
          rcases List.mem_cons.mp hy with hy | hy
          · rw [hy]; exact List.mem_cons_self x rest
          · exact List.mem_cons_of_mem x (ih s s3 rest2 hrec y hy)

theorem getIndex_det {k : Krate} {i : DeclId} {it1 it2 : Item}
    (h1 : getIndex k i = Except.ok it1) (h2 : getIndex k i = Except.ok it2) :
    it1 = it2 := by
  rw [h1] at h2
  injection h2

theorem is_primitive_enum_true_iff (k : Krate) (vs : List DeclId) :
    is_primitive_enum k vs = Except.ok true ↔ ∀ v ∈ vs, VariantPlain k v := by
  induction vs with
  | nil => simp [is_primitive_enum]
  | cons v rest ih =>
    cases hg : getIndex k v with
    | error e =>
      have he : is_primitive_enum k (v :: rest) = Except.error e := by
        simp [is_primitive_enum, hg]
      rw [he]
      constructor
      · intro h; cases h
      · intro h
        rcases h v (by simp) with ⟨it, vd, hit, _, _⟩
        rw [hg] at hit; cases hit
    | ok it =>
      cases hin : it.inner
      case variantK vd =>
        by_cases hk : vd.kind = VariantKind.plain
        · have he : is_primitive_enum k (v :: rest) = is_primitive_enum k rest := by
            simp [is_primitive_enum, hg, hin, hk]
          rw [he, ih]
          constructor
          · intro h y hy
            rcases List.mem_cons.mp hy with rfl | hy
            · exact ⟨it, vd, hg, hin, hk⟩
            · exact h y hy
          · intro h y hy
            exact h y (List.mem_cons_of_mem v hy)
        · have he : is_primitive_enum k (v :: rest) = Except.ok false := by
            simp [is_primitive_enum, hg, hin, hk]
          rw [he]
          constructor
          · intro h; cases h
          · intro h
            rcases h v (by simp) with ⟨it2, vd2, hit2, hin2, hk2⟩
            have hd := getIndex_det hg hit2
            subst hd
            rw [hin] at hin2
            injection hin2 with hin2
            subst hin2
            exact absurd hk2 hk
      all_goals
        (have he : is_primitive_enum k (v :: rest) = Except.error ("unreachable") := by
          simp [is_primitive_enum, hg, hin]
         rw [he]
         constructor
         · intro h; cases h
         · intro h
           rcases h v (by simp) with ⟨it2, vd2, hit2, hin2, _⟩
           have hd := getIndex_det hg hit2
           subst hd
           rw [hin] at hin2
           cases hin2)

theorem emit_variants_ok (k : Krate) (vs : List DeclId)
    (hwf : ∀ v ∈ vs, VariantWf k v) :
    ∀ r, ∃ r2, emit_variants k vs r = Except.ok r2 := by
  induction vs with
  | nil => intro r; exact ⟨r, rfl⟩
  | cons v rest ih =>
    intro r
    rcases hwf v (by simp) with ⟨it, vd, hg, hin, hnm⟩
    have hwfr : ∀ y ∈ rest, VariantWf k y := fun y hy => hwf y (List.mem_cons_of_mem v hy)
    cases hn : it.name with
    | none => rw [hn] at hnm; cases hnm
    | some nm =>
      cases hd : vd.discriminant with
      | some d =>
        rcases ih hwfr
            (write_summary_doc it.docs 4 r ++ "    " ++ nm ++ " = " ++ d.value ++ ",\n") with
          ⟨r2, hr2⟩
        exact ⟨r2, by simp [emit_variants, hg, hin, hn, hd, expectName, hr2]⟩
      | none =>
        rcases ih hwfr (write_summary_doc it.docs 4 r ++ "    " ++ nm ++ ",\n") with ⟨r2, hr2⟩
        exact ⟨r2, by simp [emit_variants, hg, hin, hn, hd, expectName, hr2]⟩

theorem gpe_succeeds (k : Krate) (i : DeclId) (it : Item) (ed : EnumData) (nm : String)
    (hit : getIndex k i = Except.ok it)
    (hinner : it.inner = ItemEnum.enumK ed)
    (hnm : it.name = some nm)
    (hpl : ∀ v ∈ ed.variants, VariantPlain k v)
    (hwf : ∀ v ∈ ed.variants, VariantWf k v) :
    ∀ s, ∃ r3, generate_primitive_enum k s i =
      Except.ok (BCtx.mk (insertKT s.known_types nm (KnownType.mk nm TypeKind.copy)) r3,
        true) := by
  intro s
  have hprim : is_primitive_enum k ed.variants = Except.ok true :=
    (is_primitive_enum_true_iff k ed.variants).mpr hpl
  rcases emit_variants_ok k ed.variants hwf
      (write_summary_doc it.docs 0 s.result ++ "public enum " ++ nm ++ "\n\x7b\n") with
    ⟨r2, hem⟩
  exact ⟨r2 ++ "\x7d\n\n",
    by simp [generate_primitive_enum, hit, hinner, hprim, hnm, expectName, hem, rust_name]⟩

/-- C4: an enum declaration is classified trivially transferable exactly
when every variant is plain; on success an entry displaying the declared
name, marked transferable, is registered under the declaration's source
name, and the id is removed from the worklist by the enum pass. -/
theorem enum_classification (k : Krate) (s : BCtx) (i : DeclId) (it : Item) (ed : EnumData)
    (nm : String)
    (hit : getIndex k i = Except.ok it)
    (hinner : it.inner = ItemEnum.enumK ed)
    (hnm : it.name = some nm)
    (hwf : ∀ v ∈ ed.variants, VariantWf k v) :
    ((∃ st, generate_primitive_enum k s i = Except.ok (st, true)) ↔
      ∀ v ∈ ed.variants, VariantPlain k v) ∧
    (∀ st, generate_primitive_enum k s i = Except.ok (st, true) →
      lookupKT st.known_types nm = some (KnownType.mk nm TypeKind.copy)) ∧
    (∀ w s0 st2 w2, i ∈ w → enum_pass k s0 w = Except.ok (st2, w2) →
      (∀ v ∈ ed.variants, VariantPlain k v) → i ∉ w2) := by
  refine ⟨?_, ?_, ?_⟩
  · constructor
    · rintro ⟨st, hst⟩
      cases hprim : is_primitive_enum k ed.variants with
      | error e =>
        have : generate_primitive_enum k s i = Except.error e := by
          simp [generate_primitive_enum, hit, hinner, hprim]
        rw [this] at hst; cases hst
      | ok b =>
        cases b with
        | false =>
          have : generate_primitive_enum k s i = Except.ok (s, false) := by
            simp [generate_primitive_enum, hit, hinner, hprim]
          rw [this] at hst
          injection hst with hst
          injection hst with hst1 hst2
          cases hst2
        | true => exact (is_primitive_enum_true_iff k ed.variants).mp hprim
    · intro hpl
      rcases gpe_succeeds k i it ed nm hit hinner hnm hpl hwf s with ⟨r3, h⟩
      exact ⟨_, h⟩
  · intro st hst
    rcases gpe_true_shape hst with ⟨it2, nm2, r3, hg2, hnm2, hshape⟩
    have hd := getIndex_det hit hg2
    subst hd
    rw [hnm] at hnm2
    injection hnm2 with hnm2
    subst hnm2
    rw [hshape]
    simp [lookupKT_insertKT]
  · intro w
    induction w with
    | nil => intro s0 st2 w2 hi _ _; cases hi
    | cons x rest ih =>
      intro s0 st2 w2 hi hp hpl
      cases hg : getIndex k x with
      | error e =>
        have : enum_pass k s0 (x :: rest) = Except.error e := by simp [enum_pass, hg]
        rw [this] at hp; cases hp
      | ok itx =>
        by_cases henum : ∃ ed2, itx.inner = ItemEnum.enumK ed2
        · rcases henum with ⟨ed2, hed2⟩
          rw [enum_pass_cons_enum k s0 x rest itx ed2 hg hed2] at hp
          cases hgen : generate_primitive_enum k s0 x with
          | error e => rw [hgen] at hp; simp at hp
          | ok p =>
            rcases p with ⟨s1, b⟩
            rw [hgen] at hp
            simp only at hp
            cases hrec : enum_pass k s1 rest with
            | error e => rw [hrec] at hp; simp at hp
            | ok q =>
              rcases q with ⟨s3, rest2⟩
              rw [hrec] at hp
              simp only at hp
              injection hp with hp
              injection hp with hp1 hp2
              by_cases hx : x = i
              · rw [hx] at hgen
                rcases gpe_succeeds k i it ed nm hit hinner hnm hpl hwf s0 with ⟨r3, hsucc⟩
                rw [hsucc] at hgen
                injection hgen with hgen
                injection hgen with hq1 hq2
                rw [← hq2] at hp2
                simp only [if_true] at hp2
                subst hp2
                by_cases hir : i ∈ rest
                · exact ih s1 s3 rest2 hir hrec hpl
                · intro hmem
                  exact hir (enum_pass_subset k rest s1 s3 rest2 hrec i hmem)
              · have hir : i ∈ rest := by
                  rcases List.mem_cons.mp hi with h | h
                  · exact absurd h.symm hx
                  · exact h
                have hnin : i ∉ rest2 := ih s1 s3 rest2 hir hrec hpl
                cases b with
                | true =>
                  simp only [if_true] at hp2
                  subst hp2
                  exact hnin
                | false =>
                  simp only [Bool.false_eq_true, if_false] at hp2
                  subst hp2
                  intro hmem
                  rcases List.mem_cons.mp hmem with h | h
                  · exact hx h.symm
                  · exact hnin h
        · have hne : ∀ ed2, itx.inner ≠ ItemEnum.enumK ed2 := by
            intro ed2 hc; exact henum ⟨ed2, hc⟩
          have hxne : x ≠ i := by
            intro hxx
            rw [hxx] at hg
            have hd := getIndex_det hg hit
            exact hne ed (by rw [hd, hinner])
          rw [enum_pass_cons_nonenum k s0 x rest itx hg hne] at hp
          cases hrec : enum_pass k s0 rest with
          | error e => rw [hrec] at hp; simp at hp
          | ok q =>
            rcases q with ⟨s3, rest2⟩
            rw [hrec] at hp
            simp only at hp
            injection hp with hp
            injection hp with hp1 hp2
            subst hp2
            have hir : i ∈ rest := by
              rcases List.mem_cons.mp hi with h | h
              · exact absurd h.symm hxne
              · exact h
            have hnin : i ∉ rest2 := ih s0 s3 rest2 hir hrec hpl
            intro hmem
            rcases List.mem_cons.mp hmem with h | h
            · exact hxne h.symm
            · exact hnin h

/-- Witness for C4 at the concrete `Color` enum. -/
theorem enum_classification_witness :
    (getIndex kColor 0 =
        Except.ok (Item.mk 0 (some ("Color")) none (ItemEnum.enumK (EnumData.mk [1, 2]))) ∧
      (Item.mk 0 (some ("Color")) none (ItemEnum.enumK (EnumData.mk [1, 2]))).inner =
        ItemEnum.enumK (EnumData.mk [1, 2]) ∧
      (Item.mk 0 (some ("Color")) none (ItemEnum.enumK (EnumData.mk [1, 2]))).name =
        some ("Color")) ∧
    ((∃ st, generate_primitive_enum kColor initial_state 0 = Except.ok (st, true)) ↔
      ∀ v ∈ (EnumData.mk [1, 2]).variants, VariantPlain kColor v) := by
  have hwf : ∀ v ∈ (EnumData.mk [1, 2]).variants, VariantWf kColor v := by
    intro v hv
    rcases List.mem_cons.mp hv with rfl | hv
    · exact ⟨Item.mk 1 (some ("Red")) none
        (ItemEnum.variantK (VariantData.mk VariantKind.plain none)),
        VariantData.mk VariantKind.plain none, by decide, rfl, rfl⟩
    · rcases List.mem_cons.mp hv with rfl | hv
      · exact ⟨Item.mk 2 (some ("Green")) none
          (ItemEnum.variantK (VariantData.mk VariantKind.plain
            (some (Discriminant.mk ("5") ("5"))))),
          VariantData.mk VariantKind.plain (some (Discriminant.mk ("5") ("5"))),
          by decide, rfl, rfl⟩
      · cases hv
  refine ⟨⟨by decide, by decide, by decide⟩, ?_⟩
  exact (enum_classification kColor initial_state 0
    (Item.mk 0 (some ("Color")) none (ItemEnum.enumK (EnumData.mk [1, 2])))
    (EnumData.mk [1, 2]) ("Color") (by decide) (by decide) (by decide) hwf).1

/-- C5: the struct fixed-point loop terminates on every input: the result
of `generate_primitive_structs` (which runs the loop with a pass budget of
worklist length plus one) is unchanged by any larger budget, and on
success it is a true fixed point — one further pass removes nothing and
changes nothing. -/
theorem struct_loop_fixed_point (k : Krate) (s : BCtx) (w : List DeclId) :
    (∀ n, w.length + 1 ≤ n → struct_loop_fuel k n s w = generate_primitive_structs k s w) ∧
    (∀ s2 w2, generate_primitive_structs k s w = Except.ok (s2, w2) →
      struct_pass k s2 w2 = Except.ok (s2, w2) ∧ w2.length ≤ w.length) := by
  constructor
  · intro n hn
    exact struct_loop_fuel_irrel k n (w.length + 1) s w (by omega) (by omega)
  · intro s2 w2 h
    exact struct_loop_fuel_fixed k (w.length + 1) s w s2 w2 (by omega) h

/-- Witness for C5 at the concrete `Point` index. -/
theorem struct_loop_fixed_point_witness :
    (([(0 : DeclId)].length + 1 ≤ 5 ∧
        struct_loop_fuel kPoint 5 initial_state [0] =
          generate_primitive_structs kPoint initial_state [0])) ∧
    (generate_primitive_structs kPoint initial_state [0] =
        Except.ok
          (BCtx.mk (insertKT initial_state.known_types ("Point")
            (KnownType.mk ("Point") TypeKind.copy)) (""), []) ∧
      struct_pass kPoint
          (BCtx.mk (insertKT initial_state.known_types ("Point")
            (KnownType.mk ("Point") TypeKind.copy)) ("")) [] =
        Except.ok
          (BCtx.mk (insertKT initial_state.known_types ("Point")
            (KnownType.mk ("Point") TypeKind.copy)) (""), []) ∧
      ([] : List DeclId).length ≤ [(0 : DeclId)].length) := by
  refine ⟨⟨by decide, (struct_loop_fixed_point kPoint initial_state [0]).1 5 (by decide)⟩, ?_⟩
  have h := (struct_loop_fixed_point kPoint initial_state [0]).2
    (BCtx.mk (insertKT initial_state.known_types ("Point")
      (KnownType.mk ("Point") TypeKind.copy)) ("")) [] (by decide)
  exact ⟨by decide, h.1, h.2⟩

theorem stripped_step (k : Krate) (i : DeclId) (it : Item) (fields : List DeclId)
    (hit : getIndex k i = Except.ok it)
    (hinner : it.inner = ItemEnum.structK (StructData.mk (StructKind.plain fields true))) :
    ∀ s, generate_primitive_struct k s i = Except.ok (s, false) := by
  intro s
  simp [generate_primitive_struct, hit, hinner]

theorem gpe_nonenum (k : Krate) (s : BCtx) (i : DeclId) (it : Item)
    (hit : getIndex k i = Except.ok it)
    (hne : ∀ ed, it.inner ≠ ItemEnum.enumK ed) :
    generate_primitive_enum k s i = Except.error ("unreachable") := by
  cases hin : it.inner
  case enumK ed => exact absurd hin (hne ed)
  all_goals simp [generate_primitive_enum, hit, hin]

theorem struct_pass_keeps_stripped (k : Krate) (i : DeclId) (it : Item) (fields : List DeclId)
    (hit : getIndex k i = Except.ok it)
    (hinner : it.inner = ItemEnum.structK (StructData.mk (StructKind.plain fields true))) :
    ∀ (w : List DeclId) (s s2 : BCtx) (w2 : List DeclId),
      struct_pass k s w = Except.ok (s2, w2) → i ∈ w → i ∈ w2 := by
  intro w
  induction w with
  | nil => intro s s2 w2 h hi; cases hi
  | cons x rest ih =>
    intro s s2 w2 h hi
    cases hg : getIndex k x with
    | error e =>
      have : struct_pass k s (x :: rest) = Except.error e := by simp [struct_pass, hg]
      rw [this] at h; cases h
    | ok itx =>
      by_cases hstruct : ∃ sd, itx.inner = ItemEnum.structK sd
      · rcases hstruct with ⟨sd, hsd⟩
        rw [struct_pass_cons_struct k s x rest itx sd hg hsd] at h
        cases hgen : generate_primitive_struct k s x with
        | error e => rw [hgen] at h; simp at h
        | ok p =>
          rcases p with ⟨s1, b⟩
          rw [hgen] at h
          simp only at h
          cases hrec : struct_pass k s1 rest with
          | error e => rw [hrec] at h; simp at h
          | ok q =>
            rcases q with ⟨s3, rest2⟩
            rw [hrec] at h
            simp only at h
            injection h with h
            injection h with h1 h2
            by_cases hx : x = i
            · rw [hx] at hgen
              rw [stripped_step k i it fields hit hinner s] at hgen
              injection hgen with hgen
              injection hgen with hq1 hq2
              rw [← hq2] at h2
              simp only [Bool.false_eq_true, if_false] at h2
              subst h2
              exact List.mem_cons.mpr (Or.inl hx.symm)
            · have hir : i ∈ rest := by
                rcases List.mem_cons.mp hi with hh | hh
                · exact absurd hh.symm hx
                · exact hh
              have hmem := ih s1 s3 rest2 hrec hir
              cases b with
              | true =>
                simp only [if_true] at h2
                subst h2
                exact hmem
              | false =>
                simp only [Bool.false_eq_true, if_false] at h2
                subst h2
                exact List.mem_cons_of_mem x hmem
      · have hns : ∀ sd, itx.inner ≠ ItemEnum.structK sd := by
          intro sd hc; exact hstruct ⟨sd, hc⟩
        rw [struct_pass_cons_nonstruct k s x rest itx hg hns] at h
        cases hrec : struct_pass k s rest with
        | error e => rw [hrec] at h; simp at h
        | ok q =>
          rcases q with ⟨s3, rest2⟩
          rw [hrec] at h
          simp only at h
          injection h with h
          injection h with h1 h2
          subst h2
          rcases List.mem_cons.mp hi with hh | hh
          · exact List.mem_cons.mpr (Or.inl hh)
          · exact List.mem_cons_of_mem x (ih s s3 rest2 hrec hh)

theorem struct_loop_fuel_keeps_stripped (k : Krate) (i : DeclId) (it : Item)
    (fields : List DeclId)
    (hit : getIndex k i = Except.ok it)
    (hinner : it.inner = ItemEnum.structK (StructData.mk (StructKind.plain fields true))) :
    ∀ (n : Nat) (s : BCtx) (w : List DeclId) (s2 : BCtx) (w2 : List DeclId),
      struct_loop_fuel k n s w = Except.ok (s2, w2) → i ∈ w → i ∈ w2 := by
  intro n
  induction n with
  | zero =>
    intro s w s2 w2 h hi
    simp only [struct_loop_fuel] at h
    injection h with h
    injection h with h1 h2
    subst h2
    exact hi
  | succ n0 ih =>
    intro s w s2 w2 h hi
    simp only [struct_loop_fuel] at h
    cases hp : struct_pass k s w with
    | error e => rw [hp] at h; cases h
    | ok p =>
      rw [hp] at h
      simp only at h
      rcases p with ⟨s1, w1⟩
      simp only at h
      have hi1 : i ∈ w1 :=
        struct_pass_keeps_stripped k i it fields hit hinner w s s1 w1 hp hi
      by_cases hlen : w1.length = w.length
      · rw [if_pos hlen] at h
        injection h with h
        injection h with h1 h2
        subst h2
        exact hi1
      · rw [if_neg hlen] at h
        exact ih s1 w1 s2 w2 h hi1

theorem enum_pass_keeps_nonenum (k : Krate) (i : DeclId) (it : Item)
    (hit : getIndex k i = Except.ok it)
    (hne : ∀ ed, it.inner ≠ ItemEnum.enumK ed) :
    ∀ (w : List DeclId) (s s2 : BCtx) (w2 : List DeclId),
      enum_pass k s w = Except.ok (s2, w2) → i ∈ w → i ∈ w2 := by
  intro w
  induction w with
  | nil => intro s s2 w2 h hi; cases hi
  | cons x rest ih =>
    intro s s2 w2 h hi
    cases hg : getIndex k x with
    | error e =>
      have : enum_pass k s (x :: rest) = Except.error e := by simp [enum_pass, hg]
      rw [this] at h; cases h
    | ok itx =>
      by_cases henum : ∃ ed, itx.inner = ItemEnum.enumK ed
      · rcases henum with ⟨ed, hed⟩
        have hxne : x ≠ i := by
          intro hxx
          rw [hxx] at hg
          have hd := getIndex_det hg hit
          exact hne ed (by rw [← hd]; exact hed)
        rw [enum_pass_cons_enum k s x rest itx ed hg hed] at h
        cases hgen : generate_primitive_enum k s x with
        | error e => rw [hgen] at h; simp at h
        | ok p =>
          rcases p with ⟨s1, b⟩
          rw [hgen] at h
          simp only at h
          cases hrec : enum_pass k s1 rest with
          | error e => rw [hrec] at h; simp at h
          | ok q =>
            rcases q with ⟨s3, rest2⟩
            rw [hrec] at h
            simp only at h
            injection h with h
            injection h with h1 h2
            have hir : i ∈ rest := by
              rcases List.mem_cons.mp hi with hh | hh
              · exact absurd hh.symm hxne
              · exact hh
            have hmem := ih s1 s3 rest2 hrec hir
            cases b with
            | true =>
              simp only [if_true] at h2
              subst h2
              exact hmem
            | false =>
              simp only [Bool.false_eq_true, if_false] at h2
              subst h2
              exact List.mem_cons_of_mem x hmem
      · have hne2 : ∀ ed, itx.inner ≠ ItemEnum.enumK ed := by
          intro ed hc; exact henum ⟨ed, hc⟩
        rw [enum_pass_cons_nonenum k s x rest itx hg hne2] at h
        cases hrec : enum_pass k s rest with
        | error e => rw [hrec] at h; simp at h
        | ok q =>
          rcases q with ⟨s3, rest2⟩
          rw [hrec] at h
          simp only at h
          injection h with h
          injection h with h1 h2
          subst h2
          rcases List.mem_cons.mp hi with hh | hh
          · exact List.mem_cons.mpr (Or.inl hh)
          · exact List.mem_cons_of_mem x (ih s s3 rest2 hrec hh)

theorem struct_pass_preserves_key (k : Krate) (i : DeclId) (it : Item) (fields : List DeclId)
    (hit : getIndex k i = Except.ok it)
    (hinner : it.inner = ItemEnum.structK (StructData.mk (StructKind.plain fields true))) :
    ∀ (w : List DeclId) (s s2 : BCtx) (w2 : List DeclId),
      struct_pass k s w = Except.ok (s2, w2) →
      NameUnique k w i (it.name.getD ("")) →
      lookupKT s2.known_types (it.name.getD ("")) =
        lookupKT s.known_types (it.name.getD ("")) := by
  intro w
  induction w with
  | nil =>
    intro s s2 w2 h _
    simp only [struct_pass] at h
    injection h with h
    injection h with h1 h2
    rw [← h1]
  | cons x rest ih =>
    intro s s2 w2 h hu
    have hur : NameUnique k rest i (it.name.getD ("")) :=
      fun y hy => hu y (List.mem_cons_of_mem x hy)
    cases hg : getIndex k x with
    | error e =>
      have : struct_pass k s (x :: rest) = Except.error e := by simp [struct_pass, hg]
      rw [this] at h; cases h
    | ok itx =>
      by_cases hstruct : ∃ sd, itx.inner = ItemEnum.structK sd
      · rcases hstruct with ⟨sd, hsd⟩
        rw [struct_pass_cons_struct k s x rest itx sd hg hsd] at h
        cases hgen : generate_primitive_struct k s x with
        | error e => rw [hgen] at h; simp at h
        | ok p =>
          rcases p with ⟨s1, b⟩
          rw [hgen] at h
          simp only at h
          cases hrec : struct_pass k s1 rest with
          | error e => rw [hrec] at h; simp at h
          | ok q =>
            rcases q with ⟨s3, rest2⟩
            rw [hrec] at h
            simp only at h
            injection h with h
            injection h with h1 h2
            cases b with
            | false =>
              have hs1 : s1 = s := gps_false hgen
              rw [hs1] at hrec
              rw [← h1]
              exact ih s s3 rest2 hrec hur
            | true =>
              rcases gps_true_shape hgen with ⟨itx2, hg2, hshape⟩
              by_cases hkey : itx2.name.getD ("") = it.name.getD ("")
              · have hxi : x = i := hu x (List.mem_cons_self x rest) itx2 hg2 hkey
                rw [hxi] at hgen
                rw [stripped_step k i it fields hit hinner s] at hgen
                injection hgen with hgen
                injection hgen with hq1 hq2
                cases hq2
              · have hl1 : lookupKT s1.known_types (it.name.getD ("")) =
                    lookupKT s.known_types (it.name.getD ("")) := by
                  rw [hshape]
                  simp only
                  rw [lookupKT_insertKT]
                  rw [if_neg (fun hc => hkey hc.symm)]
                rw [← h1, ih s1 s3 rest2 hrec hur, hl1]
      · have hns : ∀ sd, itx.inner ≠ ItemEnum.structK sd := by
          intro sd hc; exact hstruct ⟨sd, hc⟩
        rw [struct_pass_cons_nonstruct k s x rest itx hg hns] at h
        cases hrec : struct_pass k s rest with
        | error e => rw [hrec] at h; simp at h
        | ok q =>
          rcases q with ⟨s3, rest2⟩
          rw [hrec] at h
          simp only at h
          injection h with h
          injection h with h1 h2
          rw [← h1]
          exact ih s s3 rest2 hrec hur

theorem enum_pass_preserves_key (k : Krate) (i : DeclId) (it : Item)
    (hit : getIndex k i = Except.ok it)
    (hne : ∀ ed, it.inner ≠ ItemEnum.enumK ed) :
    ∀ (w : List DeclId) (s s2 : BCtx) (w2 : List DeclId),
      enum_pass k s w = Except.ok (s2, w2) →
      NameUnique k w i (it.name.getD ("")) →
      lookupKT s2.known_types (it.name.getD ("")) =
        lookupKT s.known_types (it.name.getD ("")) := by
  intro w
  induction w with
  | nil =>
    intro s s2 w2 h _
    simp only [enum_pass] at h
    injection h with h
    injection h with h1 h2
    rw [← h1]
  | cons x rest ih =>
    intro s s2 w2 h hu
    have hur : NameUnique k rest i (it.name.getD ("")) :=
      fun y hy => hu y (List.mem_cons_of_mem x hy)
    cases hg : getIndex k x with
    | error e =>
      have : enum_pass k s (x :: rest) = Except.error e := by simp [enum_pass, hg]
      rw [this] at h; cases h
    | ok itx =>
      by_cases henum : ∃ ed, itx.inner = ItemEnum.enumK ed
      · rcases henum with ⟨ed, hed⟩
        rw [enum_pass_cons_enum k s x rest itx ed hg hed] at h
        cases hgen : generate_primitive_enum k s x with
        | error e => rw [hgen] at h; simp at h
        | ok p =>
          rcases p with ⟨s1, b⟩
          rw [hgen] at h
          simp only at h
          cases hrec : enum_pass k s1 rest with
          | error e => rw [hrec] at h; simp at h
          | ok q =>
            rcases q with ⟨s3, rest2⟩
            rw [hrec] at h
            simp only at h
            injection h with h
            injection h with h1 h2
            cases b with
            | false =>
              have hs1 : s1 = s := gpe_false hgen
              rw [hs1] at hrec
              rw [← h1]
              exact ih s s3 rest2 hrec hur
            | true =>
              rcases gpe_true_shape hgen with ⟨itx2, nm, r3, hg2, hnm2, hshape⟩
              by_cases hkey : nm = it.name.getD ("")
              · have hgd : itx2.name.getD ("") = it.name.getD ("") := by
                  rw [hnm2]
                  simpa using hkey
                have hxi : x = i := hu x (List.mem_cons_self x rest) itx2 hg2 hgd
                rw [hxi] at hgen
                rw [gpe_nonenum k s i it hit hne] at hgen
                cases hgen
              · have hl1 : lookupKT s1.known_types (it.name.getD ("")) =
                    lookupKT s.known_types (it.name.getD ("")) := by
                  rw [hshape]
                  simp only
                  rw [lookupKT_insertKT]
                  rw [if_neg (fun hc => hkey hc.symm)]
                rw [← h1, ih s1 s3 rest2 hrec hur, hl1]
      · have hne2 : ∀ ed, itx.inner ≠ ItemEnum.enumK ed := by
          intro ed hc; exact henum ⟨ed, hc⟩
        rw [enum_pass_cons_nonenum k s x rest itx hg hne2] at h
        cases hrec : enum_pass k s rest with
        | error e => rw [hrec] at h; simp at h
        | ok q =>
          rcases q with ⟨s3, rest2⟩
          rw [hrec] at h
          simp only at h
          injection h with h
          injection h with h1 h2
          rw [← h1]
          exact ih s s3 rest2 hrec hur

theorem struct_loop_fuel_preserves_key (k : Krate) (i : DeclId) (it : Item)
    (fields : List DeclId)
    (hit : getIndex k i = Except.ok it)
    (hinner : it.inner = ItemEnum.structK (StructData.mk (StructKind.plain fields true))) :
    ∀ (n : Nat) (s : BCtx) (w : List DeclId) (s2 : BCtx) (w2 : List DeclId),
      struct_loop_fuel k n s w = Except.ok (s2, w2) →
      NameUnique k w i (it.name.getD ("")) →
      lookupKT s2.known_types (it.name.getD ("")) =
        lookupKT s.known_types (it.name.getD ("")) := by
  intro n
  induction n with
  | zero =>
    intro s w s2 w2 h _
    simp only [struct_loop_fuel] at h
    injection h with h
    injection h with h1 h2
    rw [← h1]
  | succ n0 ih =>
    intro s w s2 w2 h hu
    simp only [struct_loop_fuel] at h
    cases hp : struct_pass k s w with
    | error e => rw [hp] at h; cases h
    | ok p =>
      rw [hp] at h
      simp only at h
      rcases p with ⟨s1, w1⟩
      simp only at h
      have hl1 := struct_pass_preserves_key k i it fields hit hinner w s s1 w1 hp hu
      have hu1 : NameUnique k w1 i (it.name.getD ("")) :=
        fun y hy => hu y (struct_pass_subset k w s s1 w1 hp y hy)
      by_cases hlen : w1.length = w.length
      · rw [if_pos hlen] at h
        injection h with h
        injection h with h1 h2
        rw [← h1]
        exact hl1
      · rw [if_neg hlen] at h
        rw [ih s1 w1 s2 w2 h hu1, hl1]

theorem enum_pass_removed_isEnum (k : Krate) :
    ∀ (w : List DeclId) (s s2 : BCtx) (w2 : List DeclId),
      enum_pass k s w = Except.ok (s2, w2) → ∀ x ∈ w, x ∉ w2 → IsEnumId k x := by
  intro w
  induction w with
  | nil => intro s s2 w2 h x hx _; cases hx
  | cons y rest ih =>
    intro s s2 w2 h x hx hnx
    cases hg : getIndex k y with
    | error e =>
      have : enum_pass k s (y :: rest) = Except.error e := by simp [enum_pass, hg]
      rw [this] at h; cases h
    | ok ity =>
      by_cases henum : ∃ ed, ity.inner = ItemEnum.enumK ed
      · rcases henum with ⟨ed, hed⟩
        rw [enum_pass_cons_enum k s y rest ity ed hg hed] at h
        cases hgen : generate_primitive_enum k s y with
        | error e => rw [hgen] at h; simp at h
        | ok p =>
          rcases p with ⟨s1, b⟩
          rw [hgen] at h
          simp only at h
          cases hrec : enum_pass k s1 rest with
          | error e => rw [hrec] at h; simp at h
          | ok q =>
            rcases q with ⟨s3, rest2⟩
            rw [hrec] at h
            simp only at h
            injection h with h
            injection h with h1 h2
            rcases List.mem_cons.mp hx with rfl | hxr
            · exact ⟨ity, ed, hg, hed⟩
            · by_cases hxr2 : x ∈ rest2
              · exfalso
                apply hnx
                cases b with
                | true => simp only [if_true] at h2; rw [← h2]; exact hxr2
                | false =>
                  simp only [Bool.false_eq_true, if_false] at h2
                  rw [← h2]
                  exact List.mem_cons_of_mem y hxr2
              · exact ih s1 s3 rest2 hrec x hxr hxr2
      · have hne : ∀ ed, ity.inner ≠ ItemEnum.enumK ed := by
          intro ed hc; exact henum ⟨ed, hc⟩
        rw [enum_pass_cons_nonenum k s y rest ity hg hne] at h
        cases hrec : enum_pass k s rest with
        | error e => rw [hrec] at h; simp at h
        | ok q =>
          rcases q with ⟨s3, rest2⟩
          rw [hrec] at h
          simp only at h
          injection h with h
          injection h with h1 h2
          rcases List.mem_cons.mp hx with rfl | hxr
          · exact absurd (by rw [← h2]; exact List.mem_cons_self x rest2) hnx
          · by_cases hxr2 : x ∈ rest2
            · exact absurd (by rw [← h2]; exact List.mem_cons_of_mem y hxr2) hnx
            · exact ih s s3 rest2 hrec x hxr hxr2

theorem struct_pass_removed_isStruct (k : Krate) :
    ∀ (w : List DeclId) (s s2 : BCtx) (w2 : List DeclId),
      struct_pass k s w = Except.ok (s2, w2) → ∀ x ∈ w, x ∉ w2 → IsStructId k x := by
  intro w
  induction w with
  | nil => intro s s2 w2 h x hx _; cases hx
  | cons y rest ih =>
    intro s s2 w2 h x hx hnx
    cases hg : getIndex k y with
    | error e =>
      have : struct_pass k s (y :: rest) = Except.error e := by simp [struct_pass, hg]
      rw [this] at h; cases h
    | ok ity =>
      by_cases hstruct : ∃ sd, ity.inner = ItemEnum.structK sd
      · rcases hstruct with ⟨sd, hsd⟩
        rw [struct_pass_cons_struct k s y rest ity sd hg hsd] at h
        cases hgen : generate_primitive_struct k s y with
        | error e => rw [hgen] at h; simp at h
        | ok p =>
          rcases p with ⟨s1, b⟩
          rw [hgen] at h
          simp only at h
          cases hrec : struct_pass k s1 rest with
          | error e => rw [hrec] at h; simp at h
          | ok q =>
            rcases q with ⟨s3, rest2⟩
            rw [hrec] at h
            simp only at h
            injection h with h
            injection h with h1 h2
            rcases List.mem_cons.mp hx with rfl | hxr
            · exact ⟨ity, sd, hg, hsd⟩
            · by_cases hxr2 : x ∈ rest2
              · exfalso
                apply hnx
                cases b with
                | true => simp only [if_true] at h2; rw [← h2]; exact hxr2
                | false =>
                  simp only [Bool.false_eq_true, if_false] at h2
                  rw [← h2]
                  exact List.mem_cons_of_mem y hxr2
              · exact ih s1 s3 rest2 hrec x hxr hxr2
      · have hns : ∀ sd, ity.inner ≠ ItemEnum.structK sd := by
          intro sd hc; exact hstruct ⟨sd, hc⟩
        rw [struct_pass_cons_nonstruct k s y rest ity hg hns] at h
        cases hrec : struct_pass k s rest with
        | error e => rw [hrec] at h; simp at h
        | ok q =>
          rcases q with ⟨s3, rest2⟩
          rw [hrec] at h
          simp only at h
          injection h with h
          injection h with h1 h2
          rcases List.mem_cons.mp hx with rfl | hxr
          · exact absurd (by rw [← h2]; exact List.mem_cons_self x rest2) hnx
          · by_cases hxr2 : x ∈ rest2
            · exact absurd (by rw [← h2]; exact List.mem_cons_of_mem y hxr2) hnx
            · exact ih s s3 rest2 hrec x hxr hxr2

theorem struct_loop_fuel_removed_isStruct (k : Krate) :
    ∀ (n : Nat) (s : BCtx) (w : List DeclId) (s2 : BCtx) (w2 : List DeclId),
      struct_loop_fuel k n s w = Except.ok (s2, w2) → ∀ x ∈ w, x ∉ w2 → IsStructId k x := by
  intro n
  induction n with
  | zero =>
    intro s w s2 w2 h x hx hnx
    simp only [struct_loop_fuel] at h
    injection h with h
    injection h with h1 h2
    subst h2
    exact absurd hx hnx
  | succ n0 ih =>
    intro s w s2 w2 h x hx hnx
    simp only [struct_loop_fuel] at h
    cases hp : struct_pass k s w with
    | error e => rw [hp] at h; cases h
    | ok p =>
      rw [hp] at h
      simp only at h
      rcases p with ⟨s1, w1⟩
      simp only at h
      by_cases hx1 : x ∈ w1
      · by_cases hlen : w1.length = w.length
        · rw [if_pos hlen] at h
          injection h with h
          injection h with h1 h2
          subst h2
          exact absurd hx1 hnx
        · rw [if_neg hlen] at h
          exact ih s1 w1 s2 w2 h x hx1 hnx
      · exact struct_pass_removed_isStruct k w s s1 w1 hp x hx hx1

/-- C10: the top-level generate operation is exactly the enum pass
followed by the struct fixed-point passes on the state and worklist the
enum pass leaves behind; the enum pass removes (hence registers) only
enum declarations, and the struct passes remove only struct declarations,
so every enum registry entry exists before any struct is examined. -/
theorem generate_phase_composition (k : Krate) (s : BCtx) (w : List DeclId) :
    (generate k s w =
      match generate_primitive_enums k s w with
      | Except.error e => Except.error e
      | Except.ok p => generate_primitive_structs k p.1 p.2) ∧
    (∀ s2 w2, generate_primitive_enums k s w = Except.ok (s2, w2) →
      ∀ x ∈ w, x ∉ w2 → IsEnumId k x) ∧
    (∀ n s2 w2, struct_loop_fuel k n s w = Except.ok (s2, w2) →
      ∀ x ∈ w, x ∉ w2 → IsStructId k x) := by
  refine ⟨rfl, ?_, ?_⟩
  · intro s2 w2 h
    exact enum_pass_removed_isEnum k w s s2 w2 h
  · intro n s2 w2 h
    exact struct_loop_fuel_removed_isStruct k n s w s2 w2 h

/-- Witness for C10 at the concrete `Color` and `Point` indices. -/
theorem generate_phase_composition_witness :
    (generate_primitive_enums kColor initial_state (initial_remaining kColor) =
        Except.ok
          (BCtx.mk (insertKT initial_state.known_types ("Color")
            (KnownType.mk ("Color") TypeKind.copy))
            ("public enum Color\n\x7b\n    Red,\n    Green = 5,\n\x7d\n\n"), []) ∧
      (0 : DeclId) ∈ initial_remaining kColor ∧
      (0 : DeclId) ∉ ([] : List DeclId)) ∧
    IsEnumId kColor 0 ∧
    (struct_loop_fuel kPoint 2 initial_state [0] =
        Except.ok
          (BCtx.mk (insertKT initial_state.known_types ("Point")
            (KnownType.mk ("Point") TypeKind.copy)) (""), []) ∧
      (0 : DeclId) ∈ ([0] : List DeclId) ∧
      (0 : DeclId) ∉ ([] : List DeclId)) ∧
    IsStructId kPoint 0 := by
  refine ⟨⟨by decide, by decide, by decide⟩, ?_, ⟨by decide, by decide, by decide⟩, ?_⟩
  · exact (generate_phase_composition kColor initial_state (initial_remaining kColor)).2.1
      (BCtx.mk (insertKT initial_state.known_types ("Color")
        (KnownType.mk ("Color") TypeKind.copy))
        ("public enum Color\n\x7b\n    Red,\n    Green = 5,\n\x7d\n\n")) []
      (by decide) 0 (by decide) (by decide)
  · exact (generate_phase_composition kPoint initial_state [0]).2.2 2
      (BCtx.mk (insertKT initial_state.known_types ("Point")
        (KnownType.mk ("Point") TypeKind.copy)) ("")) []
      (by decide) 0 (by decide) (by decide)

theorem sce_refl (m : List (String × KnownType)) : SelfCopyEvolves m m :=
  fun _ v hv => ⟨v, hv, Or.inl rfl⟩

theorem sce_trans {m1 m2 m3 : List (String × KnownType)}
    (h12 : SelfCopyEvolves m1 m2) (h23 : SelfCopyEvolves m2 m3) :
    SelfCopyEvolves m1 m3 := by
  intro key v hv
  rcases h12 key v hv with ⟨v2, hv2, hc2⟩
  rcases h23 key v2 hv2 with ⟨v3, hv3, hc3⟩
  refine ⟨v3, hv3, ?_⟩
  rcases hc3 with rfl | h3
  · exact hc2
  · exact Or.inr h3

theorem sce_insert_self (m : List (String × KnownType)) (key : String) :
    SelfCopyEvolves m (insertKT m key (KnownType.mk key TypeKind.copy)) := by
  intro k0 v hv
  rw [lookupKT_insertKT]
  by_cases h : k0 = key
  · exact ⟨KnownType.mk key TypeKind.copy, by rw [if_pos h], Or.inr ⟨h.symm, rfl⟩⟩
  · exact ⟨v, by rw [if_neg h]; exact hv, Or.inl rfl⟩

theorem gps_evolves {k : Krate} {s s1 : BCtx} {i : DeclId} {b : Bool}
    (h : generate_primitive_struct k s i = Except.ok (s1, b)) :
    SelfCopyEvolves s.known_types s1.known_types := by
  rcases gps_cases k s i with ⟨e, he⟩ | hf | ⟨it, hg, ht⟩
  · rw [he] at h; cases h
  · rw [hf] at h
    injection h with h
    injection h with h1 h2
    rw [← h1]
    exact sce_refl _
  · rw [ht] at h
    injection h with h
    injection h with h1 h2
    rw [← h1]
    exact sce_insert_self _ _

theorem gpe_evolves {k : Krate} {s s1 : BCtx} {i : DeclId} {b : Bool}
    (h : generate_primitive_enum k s i = Except.ok (s1, b)) :
    SelfCopyEvolves s.known_types s1.known_types := by
  rcases gpe_cases k s i with ⟨e, he⟩ | hf | ⟨it, nm, r3, hg, hnm, ht⟩
  · rw [he] at h; cases h
  · rw [hf] at h
    injection h with h
    injection h with h1 h2
    rw [← h1]
    exact sce_refl _
  · rw [ht] at h
    injection h with h
    injection h with h1 h2
    rw [← h1]
    exact sce_insert_self _ _

theorem enum_pass_evolves (k : Krate) :
    ∀ (w : List DeclId) (s s2 : BCtx) (w2 : List DeclId),
      enum_pass k s w = Except.ok (s2, w2) →
      SelfCopyEvolves s.known_types s2.known_types := by
  intro w
  induction w with
  | nil =>
    intro s s2 w2 h
    simp only [enum_pass] at h
    injection h with h
    injection h with h1 h2
    rw [← h1]
    exact sce_refl _
  | cons x rest ih =>
    intro s s2 w2 h
    cases hg : getIndex k x with
    | error e =>
      have : enum_pass k s (x :: rest) = Except.error e := by simp [enum_pass, hg]
      rw [this] at h; cases h
    | ok itx =>
      by_cases henum : ∃ ed, itx.inner = ItemEnum.enumK ed
      · rcases henum with ⟨ed, hed⟩
        rw [enum_pass_cons_enum k s x rest itx ed hg hed] at h
        cases hgen : generate_primitive_enum k s x with
        | error e => rw [hgen] at h; simp at h
        | ok p =>
          rcases p with ⟨s1, b⟩
          rw [hgen] at h
          simp only at h
          cases hrec : enum_pass k s1 rest with
          | error e => rw [hrec] at h; simp at h
          | ok q =>
            rcases q with ⟨s3, rest2⟩
            rw [hrec] at h
            simp only at h
            injection h with h
            injection h with h1 h2
            rw [← h1]
            exact sce_trans (gpe_evolves hgen) (ih s1 s3 rest2 hrec)
      · have hne : ∀ ed, itx.inner ≠ ItemEnum.enumK ed := by
          intro ed hc; exact henum ⟨ed, hc⟩
        rw [enum_pass_cons_nonenum k s x rest itx hg hne] at h
        cases hrec : enum_pass k s rest with
        | error e => rw [hrec] at h; simp at h
        | ok q =>
          rcases q with ⟨s3, rest2⟩
          rw [hrec] at h
          simp only at h
          injection h with h
          injection h with h1 h2
          rw [← h1]
          exact ih s s3 rest2 hrec

theorem struct_pass_evolves (k : Krate) :
    ∀ (w : List DeclId) (s s2 : BCtx) (w2 : List DeclId),
      struct_pass k s w = Except.ok (s2, w2) →
      SelfCopyEvolves s.known_types s2.known_types := by
  intro w
  induction w with
  | nil =>
    intro s s2 w2 h
    simp only [struct_pass] at h
    injection h with h
    injection h with h1 h2
    rw [← h1]
    exact sce_refl _
  | cons x rest ih =>
    intro s s2 w2 h
    cases hg : getIndex k x with
    | error e =>
      have : struct_pass k s (x :: rest) = Except.error e := by simp [struct_pass, hg]
      rw [this] at h; cases h
    | ok itx =>
      by_cases hstruct : ∃ sd, itx.inner = ItemEnum.structK sd
      · rcases hstruct with ⟨sd, hsd⟩
        rw [struct_pass_cons_struct k s x rest itx sd hg hsd] at h
        cases hgen : generate_primitive_struct k s x with
        | error e => rw [hgen] at h; simp at h
        | ok p =>
          rcases p with ⟨s1, b⟩
          rw [hgen] at h
          simp only at h
          cases hrec : struct_pass k s1 rest with
          | error e => rw [hrec] at h; simp at h
          | ok q =>
            rcases q with ⟨s3, rest2⟩
            rw [hrec] at h
            simp only at h
            injection h with h
            injection h with h1 h2
            rw [← h1]
            exact sce_trans (gps_evolves hgen) (ih s1 s3 rest2 hrec)
      · have hns : ∀ sd, itx.inner ≠ ItemEnum.structK sd := by
          intro sd hc; exact hstruct ⟨sd, hc⟩
        rw [struct_pass_cons_nonstruct k s x rest itx hg hns] at h
        cases hrec : struct_pass k s rest with
        | error e => rw [hrec] at h; simp at h
        | ok q =>
          rcases q with ⟨s3, rest2⟩
          rw [hrec] at h
          simp only at h
          injection h with h
          injection h with h1 h2
          rw [← h1]
          exact ih s s3 rest2 hrec

theorem struct_loop_fuel_evolves (k : Krate) :
    ∀ (n : Nat) (s : BCtx) (w : List DeclId) (s2 : BCtx) (w2 : List DeclId),
      struct_loop_fuel k n s w = Except.ok (s2, w2) →
      SelfCopyEvolves s.known_types s2.known_types := by
  intro n
  induction n with
  | zero =>
    intro s w s2 w2 h
    simp only [struct_loop_fuel] at h
    injection h with h
    injection h with h1 h2
    rw [← h1]
    exact sce_refl _
  | succ n0 ih =>
    intro s w s2 w2 h
    simp only [struct_loop_fuel] at h
    cases hp : struct_pass k s w with
    | error e => rw [hp] at h; cases h
    | ok p =>
      rw [hp] at h
      simp only at h
      rcases p with ⟨s1, w1⟩
      simp only at h
      have h01 := struct_pass_evolves k w s s1 w1 hp
      by_cases hlen : w1.length = w.length
      · rw [if_pos hlen] at h
        injection h with h
        injection h with h1 h2
        rw [← h1]
        exact h01
      · rw [if_neg hlen] at h
        exact sce_trans h01 (ih s1 w1 s2 w2 h)

/-- C3 (amended): a run never removes a registry entry — every key
present before the run is present after — and any overwrite stores a
transferable entry whose display name is the key itself.  (The unamended
append-only claim fails: a classified declaration named like a seeded
builtin overwrites the builtin's display name; see the counterexample.) -/
theorem registry_monotone_amended (k : Krate) (s : BCtx) (w : List DeclId) (s2 : BCtx)
    (w2 : List DeclId) (h : generate k s w = Except.ok (s2, w2)) (key : String)
    (v : KnownType) (hv : lookupKT s.known_types key = some v) :
    ∃ v2, lookupKT s2.known_types key = some v2 ∧
      (v2 = v ∨ (v2.cs_name = key ∧ v2.kind = TypeKind.copy)) := by
  unfold generate generate_primitive_enums generate_primitive_structs at h
  cases hep : enum_pass k s w with
  | error e => rw [hep] at h; cases h
  | ok p =>
    rw [hep] at h
    simp only at h
    rcases p with ⟨s1, w1⟩
    simp only at h
    have h01 := enum_pass_evolves k w s s1 w1 hep
    have h12 := struct_loop_fuel_evolves k (w1.length + 1) s1 w1 s2 w2 h
    exact sce_trans h01 h12 key v hv

/-- C3 counterexample: on an index holding a zero-field plain struct
named `i32`, the run overwrites the seeded builtin entry under the key
`i32`, altering its display name from `int` to `i32` — so the registry is
not append-only as claimed. -/
theorem registry_alteration_cex :
    lookupKT default_known_types ("i32") = some (KnownType.mk ("int") TypeKind.copy) ∧
    generate kShadow initial_state (initial_remaining kShadow) =
      Except.ok
        (BCtx.mk (insertKT default_known_types ("i32") (KnownType.mk ("i32") TypeKind.copy))
          (""), []) ∧
    lookupKT (insertKT default_known_types ("i32") (KnownType.mk ("i32") TypeKind.copy))
        ("i32") = some (KnownType.mk ("i32") TypeKind.copy) ∧
    KnownType.mk ("i32") TypeKind.copy ≠ KnownType.mk ("int") TypeKind.copy := by
  refine ⟨by decide, by decide, by decide, by decide⟩

/-- Witness for the amended C3 at the `i32`-shadowing index. -/
theorem registry_monotone_amended_witness :
    (generate kShadow initial_state (initial_remaining kShadow) =
        Except.ok
          (BCtx.mk (insertKT default_known_types ("i32")
            (KnownType.mk ("i32") TypeKind.copy)) (""), []) ∧
      lookupKT initial_state.known_types ("u32") =
        some (KnownType.mk ("uint") TypeKind.copy)) ∧
    (∃ v2,
      lookupKT
          (BCtx.mk (insertKT default_known_types ("i32")
            (KnownType.mk ("i32") TypeKind.copy)) ("")).known_types ("u32") = some v2 ∧
        (v2 = KnownType.mk ("uint") TypeKind.copy ∨
          (v2.cs_name = "u32" ∧ v2.kind = TypeKind.copy))) := by
  refine ⟨⟨by decide, by decide⟩, ?_⟩
  exact registry_monotone_amended kShadow initial_state (initial_remaining kShadow)
    (BCtx.mk (insertKT default_known_types ("i32") (KnownType.mk ("i32") TypeKind.copy)) (""))
    [] (by decide) ("u32") (KnownType.mk ("uint") TypeKind.copy) (by decide)

theorem fields_all_copy_total (k : Krate) (kts : List (String × KnownType)) :
    ∀ (fields : List DeclId), (∀ f ∈ fields, ∃ itf, getIndex k f = Except.ok itf) →
      ∃ b, fields_all_copy k kts fields = Except.ok b := by
  intro fields
  induction fields with
  | nil => intro _; exact ⟨true, rfl⟩
  | cons f rest ih =>
    intro hex
    rcases hex f (by simp) with ⟨itf, hg⟩
    cases hl : lookupKT kts (itf.name.getD ("")) with
    | none => exact ⟨false, by simp [fields_all_copy, rust_name, hg, hl]⟩
    | some kt =>
      by_cases hc : kt.kind = TypeKind.copy
      · rcases ih (fun y hy => hex y (List.mem_cons_of_mem f hy)) with ⟨b, hb⟩
        exact ⟨b, by simp [fields_all_copy, rust_name, hg, hl, hc, hb]⟩
      · exact ⟨false, by simp [fields_all_copy, rust_name, hg, hl, hc]⟩

/-- C7 (amended): a missing declaration name is fatal only on the enum
classification path — a nameless all-plain enum aborts the run with the
`expect` panic message — while the struct classification path substitutes
the empty string for a missing name (`unwrap_or("")`) and never aborts on
account of names: any plain struct whose field ids resolve in the index is
processed to a normal true/false outcome, named or not. -/
theorem missing_name_paths_amended (k : Krate) (s : BCtx) :
    (∀ i it ed, getIndex k i = Except.ok it → it.inner = ItemEnum.enumK ed →
      it.name = none → is_primitive_enum k ed.variants = Except.ok true →
      generate_primitive_enum k s i = Except.error ("Item did not have name")) ∧
    (∀ i it fields stripped, getIndex k i = Except.ok it →
      it.inner = ItemEnum.structK (StructData.mk (StructKind.plain fields stripped)) →
      (∀ f ∈ fields, ∃ itf, getIndex k f = Except.ok itf) →
      ∃ p, generate_primitive_struct k s i = Except.ok p) := by
  constructor
  · intro i it ed hit hinner hnm hprim
    simp [generate_primitive_enum, hit, hinner, hprim, hnm, expectName]
  · intro i it fields stripped hit hinner hex
    cases stripped with
    | true => exact ⟨(s, false), by simp [generate_primitive_struct, hit, hinner]⟩
    | false =>
      rcases fields_all_copy_total k s.known_types fields hex with ⟨b, hb⟩
      cases b with
      | false =>
        exact ⟨(s, false), by simp [generate_primitive_struct, hit, hinner, hb]⟩
      | true =>
        refine ⟨(BCtx.mk
          (insertKT s.known_types (it.name.getD (""))
            (KnownType.mk (it.name.getD ("")) TypeKind.copy)) s.result, true), ?_⟩
        simp [generate_primitive_struct, hit, hinner, hb, rust_name]

/-- C7 counterexample: a declaration with no name is encountered on the
struct classification path and the run completes with no error at all —
the unnamed struct is even classified and registered under the
empty-string key — refuting the claim that every classification path
aborts on a nameless declaration. -/
theorem unnamed_no_abort_cex :
    getIndex kUnnamed 0 =
      Except.ok (Item.mk 0 none none
        (ItemEnum.structK (StructData.mk (StructKind.plain [] false)))) ∧
    generate kUnnamed initial_state (initial_remaining kUnnamed) =
      Except.ok
        (BCtx.mk (insertKT default_known_types ("") (KnownType.mk ("") TypeKind.copy))
          (""), []) := by
  refine ⟨by decide, by decide⟩

/-- Witness for the amended C7: a nameless all-plain enum aborts with the
`expect` message, while a nameless struct in the same index is processed
without error. -/
theorem missing_name_paths_amended_witness :
    (getIndex kNoName 0 =
        Except.ok (Item.mk 0 none none (ItemEnum.enumK (EnumData.mk [1]))) ∧
      is_primitive_enum kNoName [1] = Except.ok true) ∧
    generate_primitive_enum kNoName initial_state 0 =
      Except.error ("Item did not have name") ∧
    (∃ p, generate_primitive_struct kNoName initial_state 2 = Except.ok p) := by
  refine ⟨⟨by decide, by decide⟩, ?_, ?_⟩
  · exact (missing_name_paths_amended kNoName initial_state).1 0
      (Item.mk 0 none none (ItemEnum.enumK (EnumData.mk [1]))) (EnumData.mk [1])
      (by decide) (by decide) (by decide) (by decide)
  · exact (missing_name_paths_amended kNoName initial_state).2 2
      (Item.mk 2 none none (ItemEnum.structK (StructData.mk (StructKind.plain [] false))))
      [] false (by decide) (by decide) (by intro f hf; cases hf)

/-- C6: a plain struct flagged as having stripped fields is never
classified: examining it changes nothing and reports failure, it survives
the whole run in the pending worklist, and, as long as no other worklist
declaration carries the same registry key, the registry entry under its
name is untouched by the entire run. -/
theorem stripped_struct_never_classified (k : Krate) (i : DeclId) (it : Item)
    (fields : List DeclId)
    (hit : getIndex k i = Except.ok it)
    (hinner : it.inner = ItemEnum.structK (StructData.mk (StructKind.plain fields true))) :
    (∀ s, generate_primitive_struct k s i = Except.ok (s, false)) ∧
    (∀ s w s2 w2, generate k s w = Except.ok (s2, w2) → i ∈ w → i ∈ w2) ∧
    (∀ s w s2 w2, generate k s w = Except.ok (s2, w2) →
      NameUnique k w i (it.name.getD ("")) →
      lookupKT s2.known_types (it.name.getD ("")) =
        lookupKT s.known_types (it.name.getD (""))) := by
  have hne : ∀ ed, it.inner ≠ ItemEnum.enumK ed := by
    intro ed hc
    rw [hinner] at hc
    cases hc
  refine ⟨stripped_step k i it fields hit hinner, ?_, ?_⟩
  · intro s w s2 w2 h hi
    unfold generate generate_primitive_enums generate_primitive_structs at h
    cases hep : enum_pass k s w with
    | error e => rw [hep] at h; cases h
    | ok p =>
      rw [hep] at h
      simp only at h
      rcases p with ⟨s1, w1⟩
      simp only at h
      have hi1 : i ∈ w1 := enum_pass_keeps_nonenum k i it hit hne w s s1 w1 hep hi
      exact struct_loop_fuel_keeps_stripped k i it fields hit hinner (w1.length + 1)
        s1 w1 s2 w2 h hi1
  · intro s w s2 w2 h hu
    unfold generate generate_primitive_enums generate_primitive_structs at h
    cases hep : enum_pass k s w with
    | error e => rw [hep] at h; cases h
    | ok p =>
      rw [hep] at h
      simp only at h
      rcases p with ⟨s1, w1⟩
      simp only at h
      have hl1 := enum_pass_preserves_key k i it hit hne w s s1 w1 hep hu
      have hu1 : NameUnique k w1 i (it.name.getD ("")) :=
        fun y hy => hu y (enum_pass_subset k w s s1 w1 hep y hy)
      have hl2 := struct_loop_fuel_preserves_key k i it fields hit hinner
        (w1.length + 1) s1 w1 s2 w2 h hu1
      rw [hl2, hl1]

/-- Witness for C6 at the concrete stripped struct `Hidden`. -/
theorem stripped_struct_never_classified_witness :
    (getIndex kHidden 0 =
        Except.ok (Item.mk 0 (some ("Hidden")) none
          (ItemEnum.structK (StructData.mk (StructKind.plain [] true)))) ∧
      (Item.mk 0 (some ("Hidden")) none
          (ItemEnum.structK (StructData.mk (StructKind.plain [] true)))).inner =
        ItemEnum.structK (StructData.mk (StructKind.plain [] true))) ∧
    generate_primitive_struct kHidden initial_state 0 = Except.ok (initial_state, false) := by
  refine ⟨⟨by decide, by decide⟩, ?_⟩
  exact (stripped_struct_never_classified kHidden 0
    (Item.mk 0 (some ("Hidden")) none
      (ItemEnum.structK (StructData.mk (StructKind.plain [] true)))) []
    (by decide) (by decide)).1 initial_state

theorem nameKey_of_ok {k : Krate} {x : DeclId} {it : Item}
    (h : getIndex k x = Except.ok it) : nameKey k x = it.name.getD ("") := by
  unfold nameKey
  rw [h]

theorem exceptIsOk_iff {ε α : Type} (e : Except ε α) :
    e.isOk = true ↔ ∃ a, e = Except.ok a := by
  cases e <;> simp [Except.isOk, Except.toBool]

theorem ck_mono {m m2 : List (String × KnownType)} (hs : SelfCopyEvolves m m2)
    {key : String} (h : CKb m key = true) : CKb m2 key = true := by
  rcases (ckb_iff m key).mp h with ⟨kt, hl, hc⟩
  rcases hs key kt hl with ⟨v2, hl2, hv2⟩
  refine (ckb_iff m2 key).mpr ⟨v2, hl2, ?_⟩
  rcases hv2 with rfl | ⟨-, h2⟩
  · exact hc
  · exact h2

theorem sce_fix_self {m m2 : List (String × KnownType)} (hs : SelfCopyEvolves m m2)
    {key : String}
    (h : lookupKT m key = some (KnownType.mk key TypeKind.copy)) :
    lookupKT m2 key = some (KnownType.mk key TypeKind.copy) := by
  rcases hs key _ h with ⟨v2, hl2, hv2⟩
  rcases hv2 with rfl | ⟨h1, h2⟩
  · exact hl2
  · cases v2 with
    | mk cs kd =>
      dsimp only at h1 h2
      subst h1
      subst h2
      exact hl2

theorem rinv_ck {k : Krate} {m0 : List (String × KnownType)} {w : List DeclId}
    {m : List (String × KnownType)} (hi : RInv k m0 w m) {key : String}
    (h : CKb m key = true) : ReachKey k m0 w key := by
  rcases hi key with hl | ⟨hl, hr⟩
  · refine ReachKey.base key ?_
    unfold CKb at h ⊢
    rw [← hl]
    exact h
  · exact hr

theorem structPlainFields_some {k : Krate} {x : DeclId} {fields : List DeclId} :
    structPlainFields k x = some fields ↔
      ∃ it, getIndex k x = Except.ok it ∧
        it.inner = ItemEnum.structK (StructData.mk (StructKind.plain fields false)) := by
  constructor
  · intro h
    cases hg : getIndex k x with
    | error e =>
      rw [show structPlainFields k x = none from by simp [structPlainFields, hg]] at h
      cases h
    | ok it =>
      cases hin : it.inner
      case structK sd =>
        cases sd with
        | mk kd =>
          cases kd with
          | plain fl str =>
            cases str with
            | true =>
              rw [show structPlainFields k x = none from by
                simp [structPlainFields, hg, hin]] at h
              cases h
            | false =>
              rw [show structPlainFields k x = some fl from by
                simp [structPlainFields, hg, hin]] at h
              injection h with h
              subst h
              exact ⟨it, rfl, hin⟩
          | tuple =>
            rw [show structPlainFields k x = none from by
              simp [structPlainFields, hg, hin]] at h
            cases h
          | unitK =>
            rw [show structPlainFields k x = none from by
              simp [structPlainFields, hg, hin]] at h
            cases h
      all_goals
        (rw [show structPlainFields k x = none from by simp [structPlainFields, hg, hin]] at h
         cases h)
  · rintro ⟨it, hg, hinner⟩
    simp [structPlainFields, hg, hinner]

theorem gps_true_full {k : Krate} {s s1 : BCtx} {x : DeclId}
    (h : generate_primitive_struct k s x = Except.ok (s1, true)) :
    ∃ it fields, getIndex k x = Except.ok it ∧
      it.inner = ItemEnum.structK (StructData.mk (StructKind.plain fields false)) ∧
      fields_all_copy k s.known_types fields = Except.ok true ∧
      s1 = BCtx.mk
        (insertKT s.known_types (it.name.getD (""))
          (KnownType.mk (it.name.getD ("")) TypeKind.copy)) s.result := by
  cases hg : getIndex k x with
  | error e =>
    rw [show generate_primitive_struct k s x = Except.error e from by
      simp [generate_primitive_struct, hg]] at h
    cases h
  | ok it =>
    cases hin : it.inner
    case structK sd =>
      cases sd with
      | mk kd =>
        cases kd with
        | plain fields stripped =>
          cases stripped with
          | true =>
            rw [show generate_primitive_struct k s x = Except.ok (s, false) from by
              simp [generate_primitive_struct, hg, hin]] at h
            injection h with h
            injection h with h1 h2
            cases h2
          | false =>
            cases hfc : fields_all_copy k s.known_types fields with
            | error e =>
              rw [show generate_primitive_struct k s x = Except.error e from by
                simp [generate_primitive_struct, hg, hin, hfc]] at h
              cases h
            | ok b =>
              cases b with
              | false =>
                rw [show generate_primitive_struct k s x = Except.ok (s, false) from by
                  simp [generate_primitive_struct, hg, hin, hfc]] at h
                injection h with h
                injection h with h1 h2
                cases h2
              | true =>
                rw [show generate_primitive_struct k s x =
                    Except.ok (BCtx.mk
                      (insertKT s.known_types (it.name.getD (""))
                        (KnownType.mk (it.name.getD ("")) TypeKind.copy)) s.result, true) from by
                  simp [generate_primitive_struct, hg, hin, hfc, rust_name]] at h
                injection h with h
                injection h with h1 h2
                exact ⟨it, fields, rfl, hin, hfc, h1.symm⟩
        | tuple =>
          rw [show generate_primitive_struct k s x = Except.ok (s, false) from by
            simp [generate_primitive_struct, hg, hin]] at h
          injection h with h
          injection h with h1 h2
          cases h2
        | unitK =>
          rw [show generate_primitive_struct k s x = Except.ok (s, false) from by
            simp [generate_primitive_struct, hg, hin]] at h
          injection h with h
          injection h with h1 h2
          cases h2
    all_goals
      (rw [show generate_primitive_struct k s x = Except.error ("unreachable") from by
        simp [generate_primitive_struct, hg, hin]] at h
       cases h)

theorem gps_of_fields_ok {k : Krate} {s : BCtx} {x : DeclId} {fields : List DeclId}
    (hf : structPlainFields k x = some fields)
    (hfc : fields_all_copy k s.known_types fields = Except.ok true) :
    generate_primitive_struct k s x =
      Except.ok (BCtx.mk
        (insertKT s.known_types (nameKey k x)
          (KnownType.mk (nameKey k x) TypeKind.copy)) s.result, true) := by
  rcases structPlainFields_some.mp hf with ⟨it, hg, hinner⟩
  rw [nameKey_of_ok hg]
  simp [generate_primitive_struct, hg, hinner, hfc, rust_name]

theorem gpe_true_prim {k : Krate} {s s1 : BCtx} {i : DeclId}
    (h : generate_primitive_enum k s i = Except.ok (s1, true)) :
    ∃ it ed, getIndex k i = Except.ok it ∧ it.inner = ItemEnum.enumK ed ∧
      is_primitive_enum k ed.variants = Except.ok true := by
  cases hg : getIndex k i with
  | error e =>
    rw [show generate_primitive_enum k s i = Except.error e from by
      simp [generate_primitive_enum, hg]] at h
    cases h
  | ok it =>
    cases hin : it.inner
    case enumK ed =>
      cases hprim : is_primitive_enum k ed.variants with
      | error e =>
        rw [show generate_primitive_enum k s i = Except.error e from by
          simp [generate_primitive_enum, hg, hin, hprim]] at h
        cases h
      | ok prim =>
        cases prim with
        | false =>
          rw [show generate_primitive_enum k s i = Except.ok (s, false) from by
            simp [generate_primitive_enum, hg, hin, hprim]] at h
          injection h with h
          injection h with h1 h2
          cases h2
        | true => exact ⟨it, ed, rfl, hin, hprim⟩
    all_goals
      (rw [show generate_primitive_enum k s i = Except.error ("unreachable") from by
        simp [generate_primitive_enum, hg, hin]] at h
       cases h)

theorem gpe_false_prim {k : Krate} {s s1 : BCtx} {i : DeclId}
    (h : generate_primitive_enum k s i = Except.ok (s1, false)) :
    ∃ it ed, getIndex k i = Except.ok it ∧ it.inner = ItemEnum.enumK ed ∧
      is_primitive_enum k ed.variants = Except.ok false := by
  cases hg : getIndex k i with
  | error e =>
    rw [show generate_primitive_enum k s i = Except.error e from by
      simp [generate_primitive_enum, hg]] at h
    cases h
  | ok it =>
    cases hin : it.inner
    case enumK ed =>
      cases hprim : is_primitive_enum k ed.variants with
      | error e =>
        rw [show generate_primitive_enum k s i = Except.error e from by
          simp [generate_primitive_enum, hg, hin, hprim]] at h
        cases h
      | ok prim =>
        cases prim with
        | false => exact ⟨it, ed, rfl, hin, hprim⟩
        | true =>
          cases hnm : it.name with
          | none =>
            rw [show generate_primitive_enum k s i =
                Except.error ("Item did not have name") from by
              simp [generate_primitive_enum, hg, hin, hprim, hnm, expectName]] at h
            cases h
          | some nm =>
            cases hem : emit_variants k ed.variants
                (write_summary_doc it.docs 0 s.result ++ "public enum " ++ nm
                  ++ "\n\x7b\n") with
            | error e =>
              rw [show generate_primitive_enum k s i = Except.error e from by
                simp [generate_primitive_enum, hg, hin, hprim, hnm, expectName, hem]] at h
              cases h
            | ok r2 =>
              rw [show generate_primitive_enum k s i =
                  Except.ok (BCtx.mk
                    (insertKT s.known_types nm (KnownType.mk nm TypeKind.copy))
                    (r2 ++ "\x7d\n\n"), true) from by
                simp [generate_primitive_enum, hg, hin, hprim, hnm, expectName, hem,
                  rust_name]] at h
              injection h with h
              injection h with h1 h2
              cases h2
    all_goals
      (rw [show generate_primitive_enum k s i = Except.error ("unreachable") from by
        simp [generate_primitive_enum, hg, hin]] at h
       cases h)

theorem enum_pass_worklist (k : Krate) :
    ∀ (w : List DeclId) (s s2 : BCtx) (w2 : List DeclId),
      enum_pass k s w = Except.ok (s2, w2) →
      w2 = w.filter (fun x => !enumClassB k x) := by
  intro w
  induction w with
  | nil =>
    intro s s2 w2 h
    simp only [enum_pass] at h
    injection h with h
    injection h with h1 h2
    rw [← h2]
    rfl
  | cons x rest ih =>
    intro s s2 w2 h
    cases hg : getIndex k x with
    | error e =>
      have : enum_pass k s (x :: rest) = Except.error e := by simp [enum_pass, hg]
      rw [this] at h; cases h
    | ok itx =>
      by_cases henum : ∃ ed, itx.inner = ItemEnum.enumK ed
      · rcases henum with ⟨ed, hed⟩
        rw [enum_pass_cons_enum k s x rest itx ed hg hed] at h
        cases hgen : generate_primitive_enum k s x with
        | error e => rw [hgen] at h; simp at h
        | ok p =>
          rcases p with ⟨s1, b⟩
          rw [hgen] at h
          simp only at h
          cases hrec : enum_pass k s1 rest with
          | error e => rw [hrec] at h; simp at h
          | ok q =>
            rcases q with ⟨s3, rest2⟩
            rw [hrec] at h
            simp only at h
            injection h with h
            injection h with h1 h2
            have hrest := ih s1 s3 rest2 hrec
            cases b with
            | true =>
              simp only [if_true] at h2
              rcases gpe_true_prim hgen with ⟨it2, ed2, hg2, hin2, hprim2⟩
              have hd := getIndex_det hg hg2
              subst hd
              have hcb : enumClassB k x = true := by
                simp [enumClassB, hg, hin2, hprim2]
              rw [← h2, hrest, List.filter_cons, hcb]
              simp
            | false =>
              simp only [Bool.false_eq_true, if_false] at h2
              rcases gpe_false_prim hgen with ⟨it2, ed2, hg2, hin2, hprim2⟩
              have hd := getIndex_det hg hg2
              subst hd
              have hcb : enumClassB k x = false := by
                simp [enumClassB, hg, hin2, hprim2]
              rw [← h2, hrest, List.filter_cons, hcb]
              simp
      · have hne : ∀ ed, itx.inner ≠ ItemEnum.enumK ed := by
          intro ed hc; exact henum ⟨ed, hc⟩
        rw [enum_pass_cons_nonenum k s x rest itx hg hne] at h
        cases hrec : enum_pass k s rest with
        | error e => rw [hrec] at h; simp at h
        | ok q =>
          rcases q with ⟨s3, rest2⟩
          rw [hrec] at h
          simp only at h
          injection h with h
          injection h with h1 h2
          have hcb : enumClassB k x = false := by
            cases hin : itx.inner
            case enumK ed => exact absurd hin (hne ed)
            all_goals simp [enumClassB, hg, hin]
          rw [← h2, ih s s3 rest2 hrec, List.filter_cons, hcb]
          simp

theorem enum_pass_registry (k : Krate) :
    ∀ (w : List DeclId) (s s2 : BCtx) (w2 : List DeclId),
      enum_pass k s w = Except.ok (s2, w2) →
      ∀ key, lookupKT s2.known_types key =
        if w.any (fun x => enumClassB k x && (nameKey k x == key)) then
          some (KnownType.mk key TypeKind.copy)
        else lookupKT s.known_types key := by
  intro w
  induction w with
  | nil =>
    intro s s2 w2 h key
    simp only [enum_pass] at h
    injection h with h
    injection h with h1 h2
    rw [← h1]
    simp
  | cons x rest ih =>
    intro s s2 w2 h key
    cases hg : getIndex k x with
    | error e =>
      have : enum_pass k s (x :: rest) = Except.error e := by simp [enum_pass, hg]
      rw [this] at h; cases h
    | ok itx =>
      by_cases henum : ∃ ed, itx.inner = ItemEnum.enumK ed
      · rcases henum with ⟨ed, hed⟩
        rw [enum_pass_cons_enum k s x rest itx ed hg hed] at h
        cases hgen : generate_primitive_enum k s x with
        | error e => rw [hgen] at h; simp at h
        | ok p =>
          rcases p with ⟨s1, b⟩
          rw [hgen] at h
          simp only at h
          cases hrec : enum_pass k s1 rest with
          | error e => rw [hrec] at h; simp at h
          | ok q =>
            rcases q with ⟨s3, rest2⟩
            rw [hrec] at h
            simp only at h
            injection h with h
            injection h with h1 h2
            have hrest := ih s1 s3 rest2 hrec key
            rw [← h1] at *
            cases b with
            | true =>
              rcases gpe_true_prim hgen with ⟨it2, ed2, hg2, hin2, hprim2⟩
              have hd := getIndex_det hg hg2
              subst hd
              have hcb : enumClassB k x = true := by
                simp [enumClassB, hg, hin2, hprim2]
              rcases gpe_true_shape hgen with ⟨it3, nm, r3, hg3, hnm3, hshape⟩
              have hd3 := getIndex_det hg hg3
              subst hd3
              have hnk : nameKey k x = nm := by
                simp [nameKey, hg, hnm3]
              rw [List.any_cons, hcb, hnk]
              cases hany : rest.any (fun y => enumClassB k y && (nameKey k y == key)) with
              | true =>
                rw [hany] at hrest
                simp only [if_pos rfl] at hrest
                rw [hrest]
                simp
              | false =>
                rw [hany] at hrest
                simp only [Bool.false_eq_true, if_false] at hrest
                rw [hrest, hshape]
                simp only
                rw [lookupKT_insertKT]
                by_cases hk : key = nm
                · subst hk
                  simp
                · have hb : (nm == key) = false := beq_eq_false_iff_ne.mpr (fun hc => hk hc.symm)
                  rw [if_neg hk]
                  simp [hb]
            | false =>
              rcases gpe_false_prim hgen with ⟨it2, ed2, hg2, hin2, hprim2⟩
              have hd := getIndex_det hg hg2
              subst hd
              have hcb : enumClassB k x = false := by
                simp [enumClassB, hg, hin2, hprim2]
              have hs1 : s1 = s := gpe_false hgen
              rw [hs1] at hrest
              rw [List.any_cons, hcb]
              simpa using hrest
      · have hne : ∀ ed, itx.inner ≠ ItemEnum.enumK ed := by
          intro ed hc; exact henum ⟨ed, hc⟩
        rw [enum_pass_cons_nonenum k s x rest itx hg hne] at h
        cases hrec : enum_pass k s rest with
        | error e => rw [hrec] at h; simp at h
        | ok q =>
          rcases q with ⟨s3, rest2⟩
          rw [hrec] at h
          simp only at h
          injection h with h
          injection h with h1 h2
          have hcb : enumClassB k x = false := by
            cases hin : itx.inner
            case enumK ed => exact absurd hin (hne ed)
            all_goals simp [enumClassB, hg, hin]
          rw [← h1, List.any_cons, hcb]
          simpa using ih s s3 rest2 hrec key

theorem struct_pass_sublist (k : Krate) :
    ∀ (w : List DeclId) (s s2 : BCtx) (w2 : List DeclId),
      struct_pass k s w = Except.ok (s2, w2) → List.Sublist w2 w := by
  intro w
  induction w with
  | nil =>
    intro s s2 w2 h
    simp only [struct_pass] at h
    injection h with h
    injection h with h1 h2
    rw [← h2]
  | cons x rest ih =>
    intro s s2 w2 h
    cases hg : getIndex k x with
    | error e =>
      have : struct_pass k s (x :: rest) = Except.error e := by simp [struct_pass, hg]
      rw [this] at h; cases h
    | ok itx =>
      by_cases hstruct : ∃ sd, itx.inner = ItemEnum.structK sd
      · rcases hstruct with ⟨sd, hsd⟩
        rw [struct_pass_cons_struct k s x rest itx sd hg hsd] at h
        cases hgen : generate_primitive_struct k s x with
        | error e => rw [hgen] at h; simp at h
        | ok p =>
          rcases p with ⟨s1, b⟩
          rw [hgen] at h
          simp only at h
          cases hrec : struct_pass k s1 rest with
          | error e => rw [hrec] at h; simp at h
          | ok q =>
            rcases q with ⟨s3, rest2⟩
            rw [hrec] at h
            simp only at h
            injection h with h
            injection h with h1 h2
            cases b with
            | true =>
              simp only [if_true] at h2
              rw [← h2]
              exact (ih s1 s3 rest2 hrec).trans (List.sublist_cons_self x rest)
            | false =>
              simp only [Bool.false_eq_true, if_false] at h2
              subst h2
              exact List.Sublist.cons₂ x (ih s1 s3 rest2 hrec)
      · have hns : ∀ sd, itx.inner ≠ ItemEnum.structK sd := by
          intro sd hc; exact hstruct ⟨sd, hc⟩
        rw [struct_pass_cons_nonstruct k s x rest itx hg hns] at h
        cases hrec : struct_pass k s rest with
        | error e => rw [hrec] at h; simp at h
        | ok q =>
          rcases q with ⟨s3, rest2⟩
          rw [hrec] at h
          simp only at h
          injection h with h
          injection h with h1 h2
          subst h2
          exact List.Sublist.cons₂ x (ih s s3 rest2 hrec)

theorem struct_loop_fuel_sublist (k : Krate) :
    ∀ (n : Nat) (s : BCtx) (w : List DeclId) (s2 : BCtx) (w2 : List DeclId),
      struct_loop_fuel k n s w = Except.ok (s2, w2) → List.Sublist w2 w := by
  intro n
  induction n with
  | zero =>
    intro s w s2 w2 h
    simp only [struct_loop_fuel] at h
    injection h with h
    injection h with h1 h2
    rw [← h2]
  | succ n0 ih =>
    intro s w s2 w2 h
    simp only [struct_loop_fuel] at h
    cases hp : struct_pass k s w with
    | error e => rw [hp] at h; cases h
    | ok p =>
      rw [hp] at h
      simp only at h
      rcases p with ⟨s1, w1⟩
      simp only at h
      have hsub1 := struct_pass_sublist k w s s1 w1 hp
      by_cases hlen : w1.length = w.length
      · rw [if_pos hlen] at h
        injection h with h
        injection h with h1 h2
        rw [← h2]
        exact hsub1
      · rw [if_neg hlen] at h
        exact (ih s1 w1 s2 w2 h).trans hsub1

theorem struct_pass_sound (k : Krate) (m0 : List (String × KnownType)) (w : List DeclId) :
    ∀ (wcur : List DeclId) (s s2 : BCtx) (wrem : List DeclId),
      struct_pass k s wcur = Except.ok (s2, wrem) → (∀ y ∈ wcur, y ∈ w) →
      RInv k m0 w s.known_types →
      RInv k m0 w s2.known_types ∧ (∀ x ∈ wcur, x ∉ wrem → EvClass k m0 w x) := by
  intro wcur
  induction wcur with
  | nil =>
    intro s s2 wrem h _ hinv
    simp only [struct_pass] at h
    injection h with h
    injection h with h1 h2
    rw [← h1]
    exact ⟨hinv, fun x hx _ => absurd hx (List.not_mem_nil x)⟩
  | cons y rest ih =>
    intro s s2 wrem h hsub hinv
    have hsubr : ∀ z ∈ rest, z ∈ w := fun z hz => hsub z (List.mem_cons_of_mem y hz)
    cases hg : getIndex k y with
    | error e =>
      have : struct_pass k s (y :: rest) = Except.error e := by simp [struct_pass, hg]
      rw [this] at h; cases h
    | ok ity =>
      by_cases hstruct : ∃ sd, ity.inner = ItemEnum.structK sd
      · rcases hstruct with ⟨sd, hsd⟩
        rw [struct_pass_cons_struct k s y rest ity sd hg hsd] at h
        cases hgen : generate_primitive_struct k s y with
        | error e => rw [hgen] at h; simp at h
        | ok p =>
          rcases p with ⟨s1, b⟩
          rw [hgen] at h
          simp only at h
          cases hrec : struct_pass k s1 rest with
          | error e => rw [hrec] at h; simp at h
          | ok q =>
            rcases q with ⟨s3, rest2⟩
            rw [hrec] at h
            simp only at h
            injection h with h
            injection h with h1 h2
            cases b with
            | true =>
              simp only [if_true] at h2
              subst h2
              rcases gps_true_full hgen with ⟨it, fields, hgx, hinner, hfac, hshape⟩
              have hdet := getIndex_det hg hgx
              subst hdet
              have hyw : y ∈ w := hsub y (List.mem_cons_self y rest)
              have hspf : structPlainFields k y = some fields :=
                structPlainFields_some.mpr ⟨ity, hgx, hinner⟩
              have hfa := forall_of_fields_all_copy_ok k s.known_types fields hfac
              have hok : ∀ f ∈ fields, (getIndex k f).isOk = true := by
                intro f hf
                rcases hfa f hf with ⟨itf, hgf, _⟩
                exact (exceptIsOk_iff _).mpr ⟨itf, hgf⟩
              have hreach : ∀ f ∈ fields, ReachKey k m0 w (nameKey k f) := by
                intro f hf
                rcases hfa f hf with ⟨itf, hgf, hck⟩
                rw [nameKey_of_ok hgf]
                exact rinv_ck hinv hck
              have hev : EvClass k m0 w y := ⟨hyw, fields, hspf, hok, hreach⟩
              have hreachy : ReachKey k m0 w (nameKey k y) :=
                ReachKey.step y fields hyw hspf hok hreach
              have hnk : nameKey k y = ity.name.getD ("") := nameKey_of_ok hgx
              have hinv1 : RInv k m0 w s1.known_types := by
                intro key
                rw [hshape]
                simp only
                rw [lookupKT_insertKT]
                by_cases hk : key = ity.name.getD ("")
                · subst hk
                  rw [if_pos rfl]
                  right
                  exact ⟨rfl, by rw [← hnk]; exact hreachy⟩
                · rw [if_neg hk]
                  exact hinv key
              rcases ih s1 s3 rest2 hrec hsubr hinv1 with ⟨hinv2, hrem⟩
              refine ⟨by rw [← h1]; exact hinv2, ?_⟩
              intro x hx hnx
              rcases List.mem_cons.mp hx with rfl | hx
              · exact hev
              · by_cases hx2 : x ∈ rest2
                · exact absurd hx2 hnx
                · exact hrem x hx hx2
            | false =>
              simp only [Bool.false_eq_true, if_false] at h2
              have hs1 : s1 = s := gps_false hgen
              rw [hs1] at hrec
              rcases ih s s3 rest2 hrec hsubr hinv with ⟨hinv2, hrem⟩
              refine ⟨by rw [← h1]; exact hinv2, ?_⟩
              intro x hx hnx
              rcases List.mem_cons.mp hx with rfl | hx
              · exact absurd (h2 ▸ List.mem_cons_self x rest2) hnx
              · have hnx2 : x ∉ rest2 := by
                  intro hc
                  exact hnx (h2 ▸ List.mem_cons_of_mem y hc)
                exact hrem x hx hnx2
      · have hns : ∀ sd, ity.inner ≠ ItemEnum.structK sd := by
          intro sd hc; exact hstruct ⟨sd, hc⟩
        rw [struct_pass_cons_nonstruct k s y rest ity hg hns] at h
        cases hrec : struct_pass k s rest with
        | error e => rw [hrec] at h; simp at h
        | ok q =>
          rcases q with ⟨s3, rest2⟩
          rw [hrec] at h
          simp only at h
          injection h with h
          injection h with h1 h2
          rcases ih s s3 rest2 hrec hsubr hinv with ⟨hinv2, hrem⟩
          refine ⟨by rw [← h1]; exact hinv2, ?_⟩
          intro x hx hnx
          rcases List.mem_cons.mp hx with rfl | hx
          · exact absurd (h2 ▸ List.mem_cons_self x rest2) hnx
          · have hnx2 : x ∉ rest2 := by
              intro hc
              exact hnx (h2 ▸ List.mem_cons_of_mem y hc)
            exact hrem x hx hnx2

theorem struct_loop_sound (k : Krate) (m0 : List (String × KnownType)) (w : List DeclId) :
    ∀ (n : Nat) (wcur : List DeclId) (s s2 : BCtx) (wrem : List DeclId),
      struct_loop_fuel k n s wcur = Except.ok (s2, wrem) → (∀ y ∈ wcur, y ∈ w) →
      RInv k m0 w s.known_types →
      RInv k m0 w s2.known_types ∧ (∀ x ∈ wcur, x ∉ wrem → EvClass k m0 w x) := by
  intro n
  induction n with
  | zero =>
    intro wcur s s2 wrem h _ hinv
    simp only [struct_loop_fuel] at h
    injection h with h
    injection h with h1 h2
    subst h2
    rw [← h1]
    exact ⟨hinv, fun x hx hnx => absurd hx hnx⟩
  | succ n0 ih =>
    intro wcur s s2 wrem h hsub hinv
    simp only [struct_loop_fuel] at h
    cases hp : struct_pass k s wcur with
    | error e => rw [hp] at h; cases h
    | ok p =>
      rw [hp] at h
      simp only at h
      rcases p with ⟨sA, wA⟩
      simp only at h
      rcases struct_pass_sound k m0 w wcur s sA wA hp hsub hinv with ⟨hinvA, hremP⟩
      have hsubA : ∀ y ∈ wA, y ∈ w :=
        fun y hy => hsub y (struct_pass_subset k wcur s sA wA hp y hy)
      by_cases hlen : wA.length = wcur.length
      · rw [if_pos hlen] at h
        injection h with h
        injection h with h1 h2
        subst h2
        rw [← h1]
        exact ⟨hinvA, hremP⟩
      · rw [if_neg hlen] at h
        rcases ih wA sA s2 wrem h hsubA hinvA with ⟨hinv2, hrem2⟩
        refine ⟨hinv2, ?_⟩
        intro x hx hnx
        by_cases hxA : x ∈ wA
        · exact hrem2 x hxA hnx
        · exact hremP x hx hxA

theorem struct_pass_removed_value (k : Krate) :
    ∀ (wcur : List DeclId) (s s2 : BCtx) (wrem : List DeclId),
      struct_pass k s wcur = Except.ok (s2, wrem) →
      ∀ x ∈ wcur, x ∉ wrem →
        lookupKT s2.known_types (nameKey k x) =
          some (KnownType.mk (nameKey k x) TypeKind.copy) := by
  intro wcur
  induction wcur with
  | nil => intro s s2 wrem h x hx _; cases hx
  | cons y rest ih =>
    intro s s2 wrem h x hx hnx
    cases hg : getIndex k y with
    | error e =>
      have : struct_pass k s (y :: rest) = Except.error e := by simp [struct_pass, hg]
      rw [this] at h; cases h
    | ok ity =>
      by_cases hstruct : ∃ sd, ity.inner = ItemEnum.structK sd
      · rcases hstruct with ⟨sd, hsd⟩
        rw [struct_pass_cons_struct k s y rest ity sd hg hsd] at h
        cases hgen : generate_primitive_struct k s y with
        | error e => rw [hgen] at h; simp at h
        | ok p =>
          rcases p with ⟨s1, b⟩
          rw [hgen] at h
          simp only at h
          cases hrec : struct_pass k s1 rest with
          | error e => rw [hrec] at h; simp at h
          | ok q =>
            rcases q with ⟨s3, rest2⟩
            rw [hrec] at h
            simp only at h
            injection h with h
            injection h with h1 h2
            cases b with
            | true =>
              simp only [if_true] at h2
              subst h2
              rcases List.mem_cons.mp hx with rfl | hx
              · rcases gps_true_full hgen with ⟨it, fields, hgx, hinner, hfac, hshape⟩
                have hnk : nameKey k x = it.name.getD ("") := nameKey_of_ok hgx
                have hl1 : lookupKT s1.known_types (nameKey k x) =
                    some (KnownType.mk (nameKey k x) TypeKind.copy) := by
                  rw [hshape]
                  simp only
                  rw [hnk, lookupKT_insertKT, if_pos rfl]
                have hev := struct_pass_evolves k rest s1 s3 rest2 hrec
                rw [← h1]
                exact sce_fix_self hev hl1
              · rw [← h1]
                exact ih s1 s3 rest2 hrec x hx hnx
            | false =>
              simp only [Bool.false_eq_true, if_false] at h2
              rcases List.mem_cons.mp hx with rfl | hx
              · exact absurd (h2 ▸ List.mem_cons_self x rest2) hnx
              · have hnx2 : x ∉ rest2 := by
                  intro hc
                  exact hnx (h2 ▸ List.mem_cons_of_mem y hc)
                rw [← h1]
                exact ih s1 s3 rest2 hrec x hx hnx2
      · have hns : ∀ sd, ity.inner ≠ ItemEnum.structK sd := by
          intro sd hc; exact hstruct ⟨sd, hc⟩
        rw [struct_pass_cons_nonstruct k s y rest ity hg hns] at h
        cases hrec : struct_pass k s rest with
        | error e => rw [hrec] at h; simp at h
        | ok q =>
          rcases q with ⟨s3, rest2⟩
          rw [hrec] at h
          simp only at h
          injection h with h
          injection h with h1 h2
          rcases List.mem_cons.mp hx with rfl | hx
          · exact absurd (h2 ▸ List.mem_cons_self x rest2) hnx
          · have hnx2 : x ∉ rest2 := by
              intro hc
              exact hnx (h2 ▸ List.mem_cons_of_mem y hc)
            rw [← h1]
            exact ih s s3 rest2 hrec x hx hnx2

theorem struct_loop_fuel_removed_value (k : Krate) :
    ∀ (n : Nat) (wcur : List DeclId) (s s2 : BCtx) (wrem : List DeclId),
      struct_loop_fuel k n s wcur = Except.ok (s2, wrem) →
      ∀ x ∈ wcur, x ∉ wrem →
        lookupKT s2.known_types (nameKey k x) =
          some (KnownType.mk (nameKey k x) TypeKind.copy) := by
  intro n
  induction n with
  | zero =>
    intro wcur s s2 wrem h x hx hnx
    simp only [struct_loop_fuel] at h
    injection h with h
    injection h with h1 h2
    subst h2
    exact absurd hx hnx
  | succ n0 ih =>
    intro wcur s s2 wrem h x hx hnx
    simp only [struct_loop_fuel] at h
    cases hp : struct_pass k s wcur with
    | error e => rw [hp] at h; cases h
    | ok p =>
      rw [hp] at h
      simp only at h
      rcases p with ⟨sA, wA⟩
      simp only at h
      by_cases hxA : x ∈ wA
      · by_cases hlen : wA.length = wcur.length
        · rw [if_pos hlen] at h
          injection h with h
          injection h with h1 h2
          subst h2
          exact absurd hxA hnx
        · rw [if_neg hlen] at h
          exact ih wA sA s2 wrem h x hxA hnx
      · have hlA := struct_pass_removed_value k wcur s sA wA hp x hx hxA
        by_cases hlen : wA.length = wcur.length
        · rw [if_pos hlen] at h
          injection h with h
          injection h with h1 h2
          rw [← h1]
          exact hlA
        · rw [if_neg hlen] at h
          exact sce_fix_self (struct_loop_fuel_evolves k n0 sA wA s2 wrem h) hlA

theorem struct_pass_keeps_lookup (k : Krate) (key : String) :
    ∀ (wcur : List DeclId) (s s2 : BCtx) (wrem : List DeclId),
      struct_pass k s wcur = Except.ok (s2, wrem) → wcur.Nodup →
      (∀ x ∈ wcur, x ∉ wrem → nameKey k x ≠ key) →
      lookupKT s2.known_types key = lookupKT s.known_types key := by
  intro wcur
  induction wcur with
  | nil =>
    intro s s2 wrem h _ _
    simp only [struct_pass] at h
    injection h with h
    injection h with h1 h2
    rw [← h1]
  | cons y rest ih =>
    intro s s2 wrem h hnd hname
    rcases List.nodup_cons.mp hnd with ⟨hyr, hndr⟩
    cases hg : getIndex k y with
    | error e =>
      have : struct_pass k s (y :: rest) = Except.error e := by simp [struct_pass, hg]
      rw [this] at h; cases h
    | ok ity =>
      by_cases hstruct : ∃ sd, ity.inner = ItemEnum.structK sd
      · rcases hstruct with ⟨sd, hsd⟩
        rw [struct_pass_cons_struct k s y rest ity sd hg hsd] at h
        cases hgen : generate_primitive_struct k s y with
        | error e => rw [hgen] at h; simp at h
        | ok p =>
          rcases p with ⟨s1, b⟩
          rw [hgen] at h
          simp only at h
          cases hrec : struct_pass k s1 rest with
          | error e => rw [hrec] at h; simp at h
          | ok q =>
            rcases q with ⟨s3, rest2⟩
            rw [hrec] at h
            simp only at h
            injection h with h
            injection h with h1 h2
            cases b with
            | true =>
              simp only [if_true] at h2
              subst h2
              have hynw : y ∉ rest2 := by
                intro hc
                exact hyr ((struct_pass_sublist k rest s1 s3 rest2 hrec).subset hc)
              have hno : nameKey k y ≠ key :=
                hname y (List.mem_cons_self y rest) hynw
              rcases gps_true_full hgen with ⟨it, fields, hgx, hinner, hfac, hshape⟩
              have hnk : nameKey k y = it.name.getD ("") := nameKey_of_ok hgx
              have hl1 : lookupKT s1.known_types key = lookupKT s.known_types key := by
                rw [hshape]
                simp only
                rw [lookupKT_insertKT, if_neg (fun hc => hno (by rw [hnk, ← hc]))]
              have hnamer : ∀ x ∈ rest, x ∉ rest2 → nameKey k x ≠ key :=
                fun x hx hnx => hname x (List.mem_cons_of_mem y hx) hnx
              rw [← h1, ih s1 s3 rest2 hrec hndr hnamer, hl1]
            | false =>
              simp only [Bool.false_eq_true, if_false] at h2
              have hs1 : s1 = s := gps_false hgen
              rw [hs1] at hrec
              have hnamer : ∀ x ∈ rest, x ∉ rest2 → nameKey k x ≠ key := by
                intro x hx hnx
                refine hname x (List.mem_cons_of_mem y hx) ?_
                intro hc
                rcases List.mem_cons.mp (h2 ▸ hc) with rfl | hc2
                · exact hyr hx
                · exact hnx hc2
              rw [← h1, ih s s3 rest2 hrec hndr hnamer]
      · have hns : ∀ sd, ity.inner ≠ ItemEnum.structK sd := by
          intro sd hc; exact hstruct ⟨sd, hc⟩
        rw [struct_pass_cons_nonstruct k s y rest ity hg hns] at h
        cases hrec : struct_pass k s rest with
        | error e => rw [hrec] at h; simp at h
        | ok q =>
          rcases q with ⟨s3, rest2⟩
          rw [hrec] at h
          simp only at h
          injection h with h
          injection h with h1 h2
          have hnamer : ∀ x ∈ rest, x ∉ rest2 → nameKey k x ≠ key := by
            intro x hx hnx
            refine hname x (List.mem_cons_of_mem y hx) ?_
            intro hc
            rcases List.mem_cons.mp (h2 ▸ hc) with rfl | hc2
            · exact hyr hx
            · exact hnx hc2
          rw [← h1, ih s s3 rest2 hrec hndr hnamer]

theorem struct_loop_fuel_keeps_lookup (k : Krate) (key : String) :
    ∀ (n : Nat) (wcur : List DeclId) (s s2 : BCtx) (wrem : List DeclId),
      struct_loop_fuel k n s wcur = Except.ok (s2, wrem) → wcur.Nodup →
      (∀ x ∈ wcur, x ∉ wrem → nameKey k x ≠ key) →
      lookupKT s2.known_types key = lookupKT s.known_types key := by
  intro n
  induction n with
  | zero =>
    intro wcur s s2 wrem h _ _
    simp only [struct_loop_fuel] at h
    injection h with h
    injection h with h1 h2
    rw [← h1]
  | succ n0 ih =>
    intro wcur s s2 wrem h hnd hname
    simp only [struct_loop_fuel] at h
    cases hp : struct_pass k s wcur with
    | error e => rw [hp] at h; cases h
    | ok p =>
      rw [hp] at h
      simp only at h
      rcases p with ⟨sA, wA⟩
      simp only at h
      have hsubA := struct_pass_sublist k wcur s sA wA hp
      have hndA : wA.Nodup := hnd.sublist hsubA
      by_cases hlen : wA.length = wcur.length
      · rw [if_pos hlen] at h
        injection h with h
        injection h with h1 h2
        subst h2
        rw [← h1]
        exact struct_pass_keeps_lookup k key wcur s sA wA hp hnd hname
      · rw [if_neg hlen] at h
        have hsubF := struct_loop_fuel_sublist k n0 sA wA s2 wrem h
        have hnameP : ∀ x ∈ wcur, x ∉ wA → nameKey k x ≠ key := by
          intro x hx hnx
          refine hname x hx ?_
          intro hc
          exact hnx (hsubF.subset hc)
        have hnameA : ∀ x ∈ wA, x ∉ wrem → nameKey k x ≠ key := by
          intro x hx hnx
          exact hname x (hsubA.subset hx) hnx
        rw [ih wA sA s2 wrem h hndA hnameA,
          struct_pass_keeps_lookup k key wcur s sA wA hp hnd hnameP]

theorem fixed_pass_all_false (k : Krate) :
    ∀ (w : List DeclId) (st : BCtx),
      struct_pass k st w = Except.ok (st, w) →
      ∀ x ∈ w, ∀ itx sd, getIndex k x = Except.ok itx →
        itx.inner = ItemEnum.structK sd →
        generate_primitive_struct k st x = Except.ok (st, false) := by
  intro w
  induction w with
  | nil => intro st _ x hx; cases hx
  | cons y rest ih =>
    intro st h x hx itx sd hgx hinx
    cases hg : getIndex k y with
    | error e =>
      have : struct_pass k st (y :: rest) = Except.error e := by simp [struct_pass, hg]
      rw [this] at h; cases h
    | ok ity =>
      by_cases hstruct : ∃ sd2, ity.inner = ItemEnum.structK sd2
      · rcases hstruct with ⟨sd2, hsd2⟩
        rw [struct_pass_cons_struct k st y rest ity sd2 hg hsd2] at h
        cases hgen : generate_primitive_struct k st y with
        | error e => rw [hgen] at h; simp at h
        | ok p =>
          rcases p with ⟨s1, b⟩
          rw [hgen] at h
          simp only at h
          cases hrec : struct_pass k s1 rest with
          | error e => rw [hrec] at h; simp at h
          | ok q =>
            rcases q with ⟨s3, rest2⟩
            rw [hrec] at h
            simp only at h
            injection h with h
            injection h with h1 h2
            cases b with
            | true =>
              simp only [if_true] at h2
              have hle := struct_pass_length_le k rest s1 s3 rest2 hrec
              rw [h2] at hle
              simp at hle
            | false =>
              simp only [Bool.false_eq_true, if_false] at h2
              injection h2 with h2a h2b
              have hs1 : s1 = st := gps_false hgen
              rw [hs1, h2b] at hrec
              rw [h1] at hrec
              rcases List.mem_cons.mp hx with rfl | hx
              · rw [hs1] at hgen
                exact hgen
              · exact ih st hrec x hx itx sd hgx hinx
      · have hns : ∀ sd2, ity.inner ≠ ItemEnum.structK sd2 := by
          intro sd2 hc; exact hstruct ⟨sd2, hc⟩
        rw [struct_pass_cons_nonstruct k st y rest ity hg hns] at h
        cases hrec : struct_pass k st rest with
        | error e => rw [hrec] at h; simp at h
        | ok q =>
          rcases q with ⟨s3, rest2⟩
          rw [hrec] at h
          simp only at h
          injection h with h
          injection h with h1 h2
          injection h2 with h2a h2b
          rw [h2b] at hrec
          rw [h1] at hrec
          rcases List.mem_cons.mp hx with rfl | hx
          · have hdet := getIndex_det hgx hg
            subst hdet
            exact absurd hinx (hns sd)
          · exact ih st hrec x hx itx sd hgx hinx

theorem reach_final (k : Krate) (n : Nat) (s : BCtx) (w : List DeclId)
    (sF : BCtx) (wF : List DeclId)
    (hrun : struct_loop_fuel k n s w = Except.ok (sF, wF))
    (hfix : struct_pass k sF wF = Except.ok (sF, wF)) :
    ∀ key, ReachKey k s.known_types w key → CKb sF.known_types key = true := by
  intro key hr
  induction hr with
  | base key2 hb =>
    exact ck_mono (struct_loop_fuel_evolves k n s w sF wF hrun) hb
  | step x fields hx hf hok hall ih =>
    by_cases hxF : x ∈ wF
    · exfalso
      rcases structPlainFields_some.mp hf with ⟨it, hg, hinner⟩
      have hfc : fields_all_copy k sF.known_types fields = Except.ok true := by
        apply fields_all_copy_ok_of_forall
        intro f hfm
        rcases (exceptIsOk_iff (getIndex k f)).mp (hok f hfm) with ⟨itf, hgf⟩
        refine ⟨itf, hgf, ?_⟩
        have hc := ih f hfm
        rwa [nameKey_of_ok hgf] at hc
      have htrue := gps_of_fields_ok hf hfc
      have hfalse := fixed_pass_all_false k wF sF hfix x hxF it
        (StructData.mk (StructKind.plain fields false)) hg hinner
      rw [htrue] at hfalse
      injection hfalse with hfalse
      injection hfalse with h1 h2
      cases h2
    · have hlv := struct_loop_fuel_removed_value k n w s sF wF hrun x hx hxF
      exact (ckb_iff sF.known_types (nameKey k x)).mpr
        ⟨KnownType.mk (nameKey k x) TypeKind.copy, hlv, rfl⟩

theorem pending_not_evclass (k : Krate) (n : Nat) (s : BCtx) (w : List DeclId)
    (sF : BCtx) (wF : List DeclId)
    (hrun : struct_loop_fuel k n s w = Except.ok (sF, wF))
    (hfix : struct_pass k sF wF = Except.ok (sF, wF))
    (x : DeclId) (hxF : x ∈ wF) : ¬ EvClass k s.known_types w x := by
  rintro ⟨hxw, fields, hf, hok, hall⟩
  rcases structPlainFields_some.mp hf with ⟨it, hg, hinner⟩
  have hfc : fields_all_copy k sF.known_types fields = Except.ok true := by
    apply fields_all_copy_ok_of_forall
    intro f hfm
    rcases (exceptIsOk_iff (getIndex k f)).mp (hok f hfm) with ⟨itf, hgf⟩
    refine ⟨itf, hgf, ?_⟩
    have hc := reach_final k n s w sF wF hrun hfix (nameKey k f) (hall f hfm)
    rwa [nameKey_of_ok hgf] at hc
  have htrue := gps_of_fields_ok hf hfc
  have hfalse := fixed_pass_all_false k wF sF hfix x hxF it
    (StructData.mk (StructKind.plain fields false)) hg hinner
  rw [htrue] at hfalse
  injection hfalse with hfalse
  injection hfalse with h1 h2
  cases h2

theorem rinv_init (k : Krate) (m0 : List (String × KnownType)) (w : List DeclId) :
    RInv k m0 w m0 := fun _ => Or.inl rfl

/-- Order-free characterization of one struct fixed-point run: the
surviving worklist is exactly the non-eventually-classified entries, a
key hit by some eventually classified declaration ends as a self-named
transferable entry, and every other key keeps its pre-loop binding. -/
theorem struct_loop_charac (k : Krate) (n : Nat) (s : BCtx) (w : List DeclId)
    (sF : BCtx) (wF : List DeclId)
    (hn : w.length < n) (hnd : w.Nodup)
    (hrun : struct_loop_fuel k n s w = Except.ok (sF, wF)) :
    (∀ x, x ∈ wF ↔ (x ∈ w ∧ ¬ EvClass k s.known_types w x)) ∧
    (∀ key, (∃ x, EvClass k s.known_types w x ∧ nameKey k x = key) →
        lookupKT sF.known_types key = some (KnownType.mk key TypeKind.copy)) ∧
    (∀ key, (¬ ∃ x, EvClass k s.known_types w x ∧ nameKey k x = key) →
        lookupKT sF.known_types key = lookupKT s.known_types key) := by
  have hfix := (struct_loop_fuel_fixed k n s w sF wF hn hrun).1
  have hsound := struct_loop_sound k s.known_types w n w s sF wF hrun
    (fun y hy => hy) (rinv_init k s.known_types w)
  have hmem : ∀ x, x ∈ wF ↔ (x ∈ w ∧ ¬ EvClass k s.known_types w x) := by
    intro x
    constructor
    · intro hxF
      refine ⟨(struct_loop_fuel_sublist k n s w sF wF hrun).subset hxF, ?_⟩
      exact pending_not_evclass k n s w sF wF hrun hfix x hxF
    · rintro ⟨hxw, hnev⟩
      by_contra hxF
      exact hnev (hsound.2 x hxw hxF)
  refine ⟨hmem, ?_, ?_⟩
  · intro key hex
    rcases hex with ⟨x, hev, hkey⟩
    have hxw : x ∈ w := hev.1
    have hxF : x ∉ wF := by
      intro hc
      exact ((hmem x).mp hc).2 hev
    have hlv := struct_loop_fuel_removed_value k n w s sF wF hrun x hxw hxF
    rw [hkey] at hlv
    exact hlv
  · intro key hnex
    refine struct_loop_fuel_keeps_lookup k key n w s sF wF hrun hnd ?_
    intro x hxw hxF
    intro hkey
    exact hnex ⟨x, hsound.2 x hxw hxF, hkey⟩

theorem getIndex_perm {k1 k2 : Krate} (hp : List.Perm k1 k2)
    (hnd : (k1.map Item.id).Nodup) (i : DeclId) :
    getIndex k1 i = getIndex k2 i := by
  unfold getIndex
  cases hf1 : k1.find? (fun it => it.id == i) with
  | none =>
    have hall := List.find?_eq_none.mp hf1
    cases hf2 : k2.find? (fun it => it.id == i) with
    | none => rfl
    | some it2 =>
      have hm2 : it2 ∈ k2 := List.mem_of_find?_eq_some hf2
      have hpred := List.find?_some hf2
      exact absurd hpred (by simpa using hall it2 (hp.symm.subset hm2))
  | some it1 =>
    have hm1 : it1 ∈ k1 := List.mem_of_find?_eq_some hf1
    have hpred1 := List.find?_some hf1
    cases hf2 : k2.find? (fun it => it.id == i) with
    | none =>
      have hall := List.find?_eq_none.mp hf2
      exact absurd hpred1 (by simpa using hall it1 (hp.subset hm1))
    | some it2 =>
      have hm2 : it2 ∈ k2 := List.mem_of_find?_eq_some hf2
      have hpred2 := List.find?_some hf2
      have hid1 : it1.id = i := by simpa using hpred1
      have hid2 : it2.id = i := by simpa using hpred2
      have heq : it1 = it2 :=
        List.inj_on_of_nodup_map hnd hm1 (hp.symm.subset hm2) (by rw [hid1, hid2])
      rw [heq]

theorem nameKey_congr {k1 k2 : Krate} (hp : List.Perm k1 k2)
    (hnd : (k1.map Item.id).Nodup) (x : DeclId) : nameKey k1 x = nameKey k2 x := by
  unfold nameKey
  rw [getIndex_perm hp hnd x]

theorem structPlainFields_congr {k1 k2 : Krate} (hp : List.Perm k1 k2)
    (hnd : (k1.map Item.id).Nodup) (x : DeclId) :
    structPlainFields k1 x = structPlainFields k2 x := by
  unfold structPlainFields
  rw [getIndex_perm hp hnd x]

theorem is_primitive_enum_congr {k1 k2 : Krate} (hp : List.Perm k1 k2)
    (hnd : (k1.map Item.id).Nodup) :
    ∀ vs, is_primitive_enum k1 vs = is_primitive_enum k2 vs := by
  intro vs
  induction vs with
  | nil => rfl
  | cons v rest ih =>
    simp only [is_primitive_enum]
    rw [getIndex_perm hp hnd v]
    cases getIndex k2 v with
    | error e => rfl
    | ok it =>
      dsimp only
      cases hin : it.inner
      case variantK vd => dsimp only; rw [ih]
      all_goals rfl

theorem enumClassB_congr {k1 k2 : Krate} (hp : List.Perm k1 k2)
    (hnd : (k1.map Item.id).Nodup) (x : DeclId) :
    enumClassB k1 x = enumClassB k2 x := by
  unfold enumClassB
  rw [getIndex_perm hp hnd x]
  cases getIndex k2 x with
  | error e => rfl
  | ok it =>
    dsimp only
    cases hin : it.inner
    case enumK ed => dsimp only; rw [is_primitive_enum_congr hp hnd ed.variants]
    all_goals rfl

theorem ckb_lookup_congr {m m2 : List (String × KnownType)}
    (hm : ∀ key, lookupKT m key = lookupKT m2 key) (key : String) :
    CKb m key = CKb m2 key := by
  unfold CKb
  rw [hm key]

theorem reach_congr {k1 k2 : Krate} (hp : List.Perm k1 k2)
    (hnd : (k1.map Item.id).Nodup) {m0 m0b : List (String × KnownType)}
    (hm : ∀ key, lookupKT m0 key = lookupKT m0b key)
    {w w2 : List DeclId} (hw : ∀ x ∈ w, x ∈ w2) :
    ∀ {key}, ReachKey k1 m0 w key → ReachKey k2 m0b w2 key := by
  intro key h
  induction h with
  | base key2 hb =>
    refine ReachKey.base key2 ?_
    rw [← ckb_lookup_congr hm key2]
    exact hb
  | step x fields hx hf hok hall ih =>
    rw [nameKey_congr hp hnd x]
    refine ReachKey.step x fields (hw x hx) ?_ ?_ ?_
    · rw [← structPlainFields_congr hp hnd x]; exact hf
    · intro f hfm; rw [← getIndex_perm hp hnd f]; exact hok f hfm
    · intro f hfm
      have hc := ih f hfm
      rwa [nameKey_congr hp hnd f] at hc

theorem evclass_congr {k1 k2 : Krate} (hp : List.Perm k1 k2)
    (hnd : (k1.map Item.id).Nodup) {m0 m0b : List (String × KnownType)}
    (hm : ∀ key, lookupKT m0 key = lookupKT m0b key)
    {w w2 : List DeclId} (hw : ∀ x ∈ w, x ∈ w2) {x : DeclId}
    (h : EvClass k1 m0 w x) : EvClass k2 m0b w2 x := by
  rcases h with ⟨hx, fields, hf, hok, hall⟩
  refine ⟨hw x hx, fields, ?_, ?_, ?_⟩
  · rw [← structPlainFields_congr hp hnd x]; exact hf
  · intro f hfm; rw [← getIndex_perm hp hnd f]; exact hok f hfm
  · intro f hfm
    have hc := reach_congr hp hnd hm hw (hall f hfm)
    rwa [nameKey_congr hp hnd f] at hc

theorem any_perm_congr {l1 l2 : List DeclId} (hp : List.Perm l1 l2)
    {p1 p2 : DeclId → Bool} (hpt : ∀ x ∈ l1, p1 x = p2 x) :
    l1.any p1 = l2.any p2 := by
  cases h1 : l1.any p1 with
  | true =>
    rcases List.any_eq_true.mp h1 with ⟨x, hx, hpx⟩
    exact (List.any_eq_true.mpr ⟨x, hp.subset hx, by rw [← hpt x hx]; exact hpx⟩).symm
  | false =>
    cases h2 : l2.any p2 with
    | false => rfl
    | true =>
      rcases List.any_eq_true.mp h2 with ⟨x, hx, hpx⟩
      have hx1 : x ∈ l1 := hp.symm.subset hx
      have hc : l1.any p1 = true :=
        List.any_eq_true.mpr ⟨x, hx1, by rw [hpt x hx1]; exact hpx⟩
      rw [h1] at hc
      cases hc

/-- C2 (amended): a run's output is a pure function of the declaration
index in its iteration order, and the parts of the result the program can
promise are iteration-order-free — two runs over the same declaration map
(the same items, permuted, with distinct ids) build their worklists as
permutations of each other, classify exactly the same set of declarations
(the surviving worklists hold the same ids, so they are permutations of
each other), and produce lookup-identical known-type registries.  The
original byte-identical-output claim is refuted by
`output_order_dependent_cex`: the worklist comes from
`HashMap::values()`, whose iteration order may differ between runs, and
the output buffer records classifications in worklist order. -/
theorem run_set_and_registry_invariant
    (k1 k2 : Krate) (hp : List.Perm k1 k2) (hnd : (k1.map Item.id).Nodup)
    (s1F s2F : BCtx) (w1F w2F : List DeclId)
    (h1 : generate k1 initial_state (initial_remaining k1) = Except.ok (s1F, w1F))
    (h2 : generate k2 initial_state (initial_remaining k2) = Except.ok (s2F, w2F)) :
    List.Perm (initial_remaining k1) (initial_remaining k2) ∧
    (∀ x, x ∈ w1F ↔ x ∈ w2F) ∧ List.Perm w1F w2F ∧
    (∀ key, lookupKT s1F.known_types key = lookupKT s2F.known_types key) := by
  have hnd2 : (k2.map Item.id).Nodup := ((hp.map Item.id).nodup_iff).mp hnd
  have hpw : List.Perm (initial_remaining k1) (initial_remaining k2) := by
    unfold initial_remaining
    exact (hp.filter item_relevant).map (fun it => it.id)
  have hndw1 : (initial_remaining k1).Nodup := by
    unfold initial_remaining
    exact hnd.sublist ((List.filter_sublist k1).map (fun it => it.id))
  unfold generate generate_primitive_enums generate_primitive_structs at h1 h2
  cases hE1 : enum_pass k1 initial_state (initial_remaining k1) with
  | error e => rw [hE1] at h1; cases h1
  | ok p1 =>
    rw [hE1] at h1
    simp only at h1
    rcases p1 with ⟨sE1, wE1⟩
    simp only at h1
    cases hE2 : enum_pass k2 initial_state (initial_remaining k2) with
    | error e => rw [hE2] at h2; cases h2
    | ok p2 =>
      rw [hE2] at h2
      simp only at h2
      rcases p2 with ⟨sE2, wE2⟩
      simp only at h2
      have hw1 := enum_pass_worklist k1 (initial_remaining k1) initial_state sE1 wE1 hE1
      have hw2 := enum_pass_worklist k2 (initial_remaining k2) initial_state sE2 wE2 hE2
      have hfun : (fun x => !enumClassB k1 x) = (fun x => !enumClassB k2 x) :=
        funext (fun x => by rw [enumClassB_congr hp hnd x])
      have hpermE : List.Perm wE1 wE2 := by
        rw [hw1, hw2, hfun]
        exact hpw.filter _
      have hndE1 : wE1.Nodup := by
        rw [hw1]; exact hndw1.filter _
      have hndE2 : wE2.Nodup := hpermE.nodup_iff.mp hndE1
      have hregE : ∀ key, lookupKT sE1.known_types key = lookupKT sE2.known_types key := by
        intro key
        rw [enum_pass_registry k1 (initial_remaining k1) initial_state sE1 wE1 hE1 key,
          enum_pass_registry k2 (initial_remaining k2) initial_state sE2 wE2 hE2 key]
        have hany : (initial_remaining k1).any
              (fun x => enumClassB k1 x && (nameKey k1 x == key)) =
            (initial_remaining k2).any
              (fun x => enumClassB k2 x && (nameKey k2 x == key)) :=
          any_perm_congr hpw
            (fun x _ => by rw [enumClassB_congr hp hnd x, nameKey_congr hp hnd x])
        rw [hany]
      have hch1 := struct_loop_charac k1 (wE1.length + 1) sE1 wE1 s1F w1F
        (Nat.lt_succ_self _) hndE1 h1
      have hch2 := struct_loop_charac k2 (wE2.length + 1) sE2 wE2 s2F w2F
        (Nat.lt_succ_self _) hndE2 h2
      have hev12 : ∀ x, EvClass k1 sE1.known_types wE1 x → EvClass k2 sE2.known_types wE2 x :=
        fun x h => evclass_congr hp hnd hregE (fun y hy => hpermE.subset hy) h
      have hev21 : ∀ x, EvClass k2 sE2.known_types wE2 x → EvClass k1 sE1.known_types wE1 x :=
        fun x h => evclass_congr hp.symm hnd2 (fun key => (hregE key).symm)
          (fun y hy => hpermE.symm.subset hy) h
      have hmemF : ∀ x, x ∈ w1F ↔ x ∈ w2F := by
        intro x
        rw [hch1.1 x, hch2.1 x]
        constructor
        · rintro ⟨hxw, hnev⟩
          exact ⟨hpermE.subset hxw, fun hev => hnev (hev21 x hev)⟩
        · rintro ⟨hxw, hnev⟩
          exact ⟨hpermE.symm.subset hxw, fun hev => hnev (hev12 x hev)⟩
      have hndF1 : w1F.Nodup :=
        hndE1.sublist (struct_loop_fuel_sublist k1 (wE1.length + 1) sE1 wE1 s1F w1F h1)
      have hndF2 : w2F.Nodup :=
        hndE2.sublist (struct_loop_fuel_sublist k2 (wE2.length + 1) sE2 wE2 s2F w2F h2)
      refine ⟨hpw, hmemF, (List.perm_ext_iff_of_nodup hndF1 hndF2).mpr hmemF, ?_⟩
      intro key
      by_cases hex : ∃ x, EvClass k1 sE1.known_types wE1 x ∧ nameKey k1 x = key
      · have hex2 : ∃ x, EvClass k2 sE2.known_types wE2 x ∧ nameKey k2 x = key := by
          rcases hex with ⟨x, hev, hkey⟩
          exact ⟨x, hev12 x hev, by rw [← nameKey_congr hp hnd x]; exact hkey⟩
        rw [hch1.2.1 key hex, hch2.2.1 key hex2]
      · have hex2 : ¬ ∃ x, EvClass k2 sE2.known_types wE2 x ∧ nameKey k2 x = key := by
          rintro ⟨x, hev, hkey⟩
          exact hex ⟨x, hev21 x hev, by rw [nameKey_congr hp hnd x]; exact hkey⟩
        rw [hch1.2.2 key hex, hch2.2.2 key hex2]
        exact hregE key

/-- Witness for `run_set_and_registry_invariant`: the two iteration orders
of the same two-enum declaration map, every hypothesis discharged by
evaluating the runs. -/
theorem run_set_and_registry_invariant_witness :
    List.Perm (initial_remaining kOrderAB) (initial_remaining kOrderBA) ∧
    (∀ x, x ∈ ([] : List DeclId) ↔ x ∈ ([] : List DeclId)) ∧
    List.Perm ([] : List DeclId) ([] : List DeclId) ∧
    (∀ key, lookupKT stateAB.known_types key = lookupKT stateBA.known_types key) :=
  run_set_and_registry_invariant kOrderAB kOrderBA (by decide) (by decide)
    stateAB stateBA [] [] (by decide) (by decide)

/-- C2 (refutation of byte-identical output): the same declaration map
presented in its two iteration orders yields different output buffers —
the bytes follow the worklist order, which `HashMap::values()` does not
fix between runs. -/
theorem output_order_dependent_cex :
    List.Perm kOrderAB kOrderBA ∧
    (generate kOrderAB initial_state (initial_remaining kOrderAB) =
      Except.ok (stateAB, ([] : List DeclId))) ∧
    (generate kOrderBA initial_state (initial_remaining kOrderBA) =
      Except.ok (stateBA, ([] : List DeclId))) ∧
    stateAB.result ≠ stateBA.result := by
  refine ⟨by decide, by decide, by decide, by decide⟩

end EguiBindgen

namespace Ag

theorem string_ext {s t : String} (h : s.data = t.data) : s = t := by
  cases s
  cases t
  exact congrArg String.mk h

theorem replaceNl_append (a b : List Char) :
    replaceNl (a ++ b) = replaceNl a ++ replaceNl b := by
  induction a with
  | nil => simp [replaceNl]
  | cons c rest ih =>
    by_cases hc : c = '\n'
    · simp [replaceNl, hc, ih]
    · simp [replaceNl, hc, ih]

theorem dropWhile_fix_append {p : Char → Bool} {a : List Char}
    (ha : List.dropWhile p a = a) (hne : a ≠ []) (b : List Char) :
    List.dropWhile p (a ++ b) = a ++ b := by
  cases a with
  | nil => exact absurd rfl hne
  | cons c rest =>
    have h0 : 0 < (c :: rest).length := by simp
    have hp : p c = false := by
      have h1 := (List.dropWhile_eq_self_iff.mp ha) h0
      simpa using h1
    rw [List.cons_append, List.dropWhile_cons, hp]
    simp

theorem trimEndL_append_fix {y : List Char} (hy : trimEndL y = y) (hne : y ≠ [])
    (x : List Char) : trimEndL (x ++ '\n' :: y) = x ++ '\n' :: y := by
  have hyd : List.dropWhile Char.isWhitespace y.reverse = y.reverse := by
    have h2 := congrArg List.reverse hy
    unfold trimEndL at h2
    simp only [List.reverse_reverse] at h2
    exact h2
  have hner : y.reverse ≠ [] := by simpa using hne
  unfold trimEndL
  rw [List.reverse_append, List.reverse_cons, List.append_assoc]
  rw [dropWhile_fix_append hyd hner]
  simp

/-- C9: the indentation helper maps the empty string to the empty string,
maps `"a\nb"` to exactly four-space-indented lines with a final newline,
and distributes over concatenation of non-empty blocks that carry no
trailing whitespace. -/
theorem indent_composition (x y : String) (hx : x.data ≠ []) (hy : y.data ≠ [])
    (htx : trimEndL x.data = x.data) (hty : trimEndL y.data = y.data) :
    indent ("") = "" ∧
    indent ("a\nb") = "    a\n    b\n" ∧
    indent (x ++ "\n" ++ y) = indent x ++ indent y := by
  refine ⟨by decide, by decide, ?_⟩
  have hdata : (x ++ "\n" ++ y).data = x.data ++ '\n' :: y.data := by
    show x.data ++ ['\n'] ++ y.data = x.data ++ '\n' :: y.data
    simp
  have hxyne : (x ++ "\n" ++ y).data ≠ [] := by
    rw [hdata]
    simp
  unfold indent
  rw [if_neg hxyne, if_neg hx, if_neg hy]
  apply string_ext
  show spaces4 ++ replaceNl (trimEndL (x ++ "\n" ++ y).data) ++ ['\n'] =
    (spaces4 ++ replaceNl (trimEndL x.data) ++ ['\n']) ++
      (spaces4 ++ replaceNl (trimEndL y.data) ++ ['\n'])
  rw [hdata, trimEndL_append_fix hty hy x.data, htx, hty]
  rw [replaceNl_append x.data ('\n' :: y.data)]
  have hnl : replaceNl ('\n' :: y.data) = '\n' :: (spaces4 ++ replaceNl y.data) := by
    simp [replaceNl]
  rw [hnl]
  simp [List.append_assoc]

/-- Witness for C9 at the concrete blocks `"a"` and `"b"`. -/
theorem indent_composition_witness :
    (("a" : String).data ≠ [] ∧ ("b" : String).data ≠ [] ∧
      trimEndL ("a" : String).data = ("a" : String).data ∧
      trimEndL ("b" : String).data = ("b" : String).data) ∧
    (indent ("") = "" ∧
      indent ("a\nb") = "    a\n    b\n" ∧
      indent (("a" : String) ++ "\n" ++ "b") = indent ("a") ++ indent ("b")) := by
  refine ⟨⟨by decide, by decide, by decide, by decide⟩, ?_⟩
  exact indent_composition ("a") ("b") (by decide) (by decide) (by decide) (by decide)

/-- C8: the naming transformer keeps the declared type name on the host
surface, prepends the fixed `Vx` marker for the native-exposed type name,
derives the native function-name stem by snake conversion, converts field
names to Pascal form on the host surface (`radius_px` to `RadiusPx`), and
leaves field names unchanged on the native surface. -/
theorem naming_transformer_rules (it : Item) (f : StructField) :
    it.cs_name = it.name ∧
    it.rs_name = "Vx" ++ it.name ∧
    it.rs_fn_name = toSnake it.name ∧
    f.cs_name = toPascal f.name ∧
    f.rs_name = f.name ∧
    toPascal ("radius_px") = "RadiusPx" ∧
    toSnake ("radius_px") = "radius_px" := by
  refine ⟨rfl, rfl, rfl, rfl, rfl, by decide, by decide⟩

end Ag
